import Mathlib

/-!
Verification of the `ccpm` package builder (`build.py`).

The development shallowly embeds the builder's pipeline: manifest loading,
source-tree walking, per-file digesting, document assembly, JSON
serialization (matching CPython `json.dumps` with its default separators and
`ensure_ascii` escaping), UTF-8 encoding, base64 encoding, archive writing
and index construction.  External library primitives that are not part of
the repository are treated as follows:

* `json.dumps` / `json.loads` are implemented concretely (`dumpVal`,
  `parseVal`) for the value grammar the builder can produce (numbers are
  integers; floats do not occur in the pipeline's own data).
* `base64.b64encode` / `b64decode` and UTF-8 are implemented concretely.
* `zlib.compress` / `zlib.decompress` are abstract parameters constrained
  only by their contract (`ValidZlib`): decompression inverts compression
  and compressed output is a byte list.
* `hashlib.sha256(...).hexdigest()` is an abstract parameter
  `sha : List Nat → String`; every theorem holds for any instantiation, in
  particular for the real SHA-256 hex digest.
-/

namespace Ccpm

/-! ### JSON values

Python `dict`s preserve insertion order, so JSON objects are modelled as
ordered association lists.  Numbers are `Int`: the builder only ever
serializes manifests, text content and hex-digest strings, so the float
part of the JSON grammar is out of scope for this embedding. -/

inductive Json where
  | null
  | bool (b : Bool)
  | num (n : Int)
  | str (s : String)
  | arr (elems : List Json)
  | obj (members : List (String × Json))

/-- Lookup in an ordered association list, as Python `d[k]` / `k in d`. -/
def dictGet (d : List (String × Json)) (k : String) : Option Json :=
  match d with
  | [] => none
  | kv :: rest => if kv.1 = k then some kv.2 else dictGet rest k

/-- Key membership in an ordered association list, Python `k in d`. -/
def dictHas (d : List (String × Json)) (k : String) : Bool :=
  d.any (fun kv => kv.1 == k)

/-- Python `d[k] = v` on an insertion-ordered dict: an existing key keeps its
position and gets the new value, a fresh key is appended at the end. -/
def dictSet (d : List (String × Json)) (k : String) (v : Json) : List (String × Json) :=
  if dictHas d k then
    d.map (fun kv => if kv.1 = k then (k, v) else kv)
  else
    d ++ [(k, v)]

/-- Keys of an association list are pairwise distinct (always true of the
association lists that model Python dicts). -/
def nodupKeys : List (String × Json) → Bool
  | [] => true
  | kv :: ms => !(ms.any (fun kv2 => kv2.1 == kv.1)) && nodupKeys ms

mutual
/-- Well-formedness of a JSON value as an image of a Python object: every
object level has pairwise distinct keys (Python dicts cannot hold
duplicates). -/
def jwfB : Json → Bool
  | .null => true
  | .bool _ => true
  | .num _ => true
  | .str _ => true
  | .arr es => jwfL es
  | .obj ms => nodupKeys ms && jwfM ms

def jwfL : List Json → Bool
  | [] => true
  | e :: es => jwfB e && jwfL es

def jwfM : List (String × Json) → Bool
  | [] => true
  | (_, v) :: ms => jwfB v && jwfM ms
end

mutual
/-- Structure size of a JSON value; fuel bound for the parser. -/
def jsize : Json → Nat
  | .null => 1
  | .bool _ => 1
  | .num _ => 1
  | .str _ => 1
  | .arr es => jsizeL es + 1
  | .obj ms => jsizeM ms + 1

def jsizeL : List Json → Nat
  | [] => 0
  | e :: es => jsize e + jsizeL es + 1

def jsizeM : List (String × Json) → Nat
  | [] => 0
  | (_, v) :: ms => jsize v + jsizeM ms + 1
end

/-! ### Serialization: CPython `json.dumps` with default options

Defaults mean `ensure_ascii=True` (every character outside `0x20..0x7e` is
`\uXXXX`-escaped, astral characters as a surrogate pair) and separators
`", "` / `": "`. -/

/-- Decimal digit character. -/
def digChar (n : Nat) : Char := Char.ofNat (48 + n)

/-- Lowercase hexadecimal digit character, as CPython's `%04x`. -/
def hexChar (n : Nat) : Char :=
  if n < 10 then Char.ofNat (48 + n) else Char.ofNat (87 + n)

/-- Four lowercase hex digits of `n < 0x10000`, most significant first. -/
def hexQuad (n : Nat) : List Char :=
  [hexChar (n / 4096 % 16), hexChar (n / 256 % 16), hexChar (n / 16 % 16), hexChar (n % 16)]

/-- One character as `json.dumps` (with `ensure_ascii`) emits it: the named
short escapes, raw printable ASCII, `\uXXXX` otherwise, astral characters as
a UTF-16 surrogate pair. -/
def escChar (c : Char) : List Char :=
  if c = '"' then ['\\', '"']
  else if c = '\\' then ['\\', '\\']
  else if c.toNat = 8 then ['\\', 'b']
  else if c.toNat = 12 then ['\\', 'f']
  else if c.toNat = 10 then ['\\', 'n']
  else if c.toNat = 13 then ['\\', 'r']
  else if c.toNat = 9 then ['\\', 't']
  else if 32 ≤ c.toNat ∧ c.toNat ≤ 126 then [c]
  else if c.toNat < 65536 then '\\' :: 'u' :: hexQuad c.toNat
  else
    ('\\' :: 'u' :: hexQuad (55296 + (c.toNat - 65536) / 1024)) ++
      ('\\' :: 'u' :: hexQuad (56320 + (c.toNat - 65536) % 1024))

/-- Escaped body of a JSON string literal. -/
def escBody (s : String) : List Char := (s.data.map escChar).flatten

/-- A JSON string literal: quote, escaped body, quote. -/
def dumpStr (s : String) : List Char := '"' :: escBody s ++ ['"']

/-- Decimal digits of `n`, most significant first (`fuel`-bounded helper;
`natRepr` supplies enough fuel for any input). -/
def natReprAux : Nat → Nat → List Char
  | 0, _ => []
  | fuel + 1, n => if n < 10 then [digChar n] else natReprAux fuel (n / 10) ++ [digChar (n % 10)]

/-- Decimal digits of a natural number, as Python `repr`. -/
def natRepr (n : Nat) : List Char := natReprAux (n + 1) n

/-- An integer as Python `repr` renders it: optional minus, then digits. -/
def intRepr (n : Int) : List Char :=
  if n < 0 then '-' :: natRepr n.natAbs else natRepr n.natAbs

mutual
/-- `json.dumps` with default separators, on characters. -/
def dumpVal : Json → List Char
  | .null => ['n', 'u', 'l', 'l']
  | .bool b => if b then ['t', 'r', 'u', 'e'] else ['f', 'a', 'l', 's', 'e']
  | .num n => intRepr n
  | .str s => dumpStr s
  | .arr [] => ['[', ']']
  | .arr (e :: es) => '[' :: (dumpVal e ++ dumpMore es) ++ [']']
  | .obj [] => ['{', '}']
  | .obj (kv :: ms) => '{' :: (dumpField kv ++ dumpMoreKV ms) ++ ['}']

/-- One object member: `"key": value`. -/
def dumpField : String × Json → List Char
  | (k, v) => dumpStr k ++ ':' :: ' ' :: dumpVal v

/-- Second and later array elements, each preceded by `", "`. -/
def dumpMore : List Json → List Char
  | [] => []
  | e :: es => ',' :: ' ' :: dumpVal e ++ dumpMore es

/-- Second and later object members, each preceded by `", "`. -/
def dumpMoreKV : List (String × Json) → List Char
  | [] => []
  | kv :: ms => ',' :: ' ' :: dumpField kv ++ dumpMoreKV ms
end

/-- `json.dumps` as a string-producing function. -/
def jsonDumps (j : Json) : String := ⟨dumpVal j⟩

example : dumpVal (.obj [("a", .num 1), ("b", .arr [.null, .bool true])])
    = ("\x7b\"a\": 1, \"b\": [null, true]\x7d").data := by decide

example : dumpVal (.str "h\ni") = ['"', 'h', '\\', 'n', 'i', '"'] := by decide

example : dumpVal (.num (-12)) = ['-', '1', '2'] := by decide

/-! ### Parsing: a model of `json.loads` on the grammar above

The parser is total via explicit fuel (every recursive call strictly
decreases it); `jsonParse` supplies fuel exceeding any document the input
could encode.  Deliberate divergences from CPython, none of which is
reachable from output of `dumpVal`: floats are rejected rather than parsed
(the value model has no floats), a lone surrogate in a `\u` escape is
rejected rather than kept (Lean `Char` is a Unicode scalar value), and a
malformed document may be rejected where CPython would also reject it but
with a different error. -/

/-- JSON insignificant whitespace. -/
def isWsC (c : Char) : Bool := c == ' ' || c == '\t' || c == '\n' || c == '\r'

/-- Drop leading JSON whitespace. -/
def skipWs : List Char → List Char
  | [] => []
  | c :: cs => if isWsC c then skipWs cs else c :: cs

/-- ASCII decimal digit test. -/
def isDig (c : Char) : Bool := 48 ≤ c.toNat && c.toNat ≤ 57

/-- Split off the maximal run of leading decimal digits. -/
def grabDigits : List Char → List Char × List Char
  | [] => ([], [])
  | c :: cs =>
    if isDig c then
      let p := grabDigits cs
      (c :: p.1, p.2)
    else ([], c :: cs)

/-- Value of a digit run, most significant first. -/
def digitsVal (ds : List Char) : Nat := ds.foldl (fun a c => a * 10 + (c.toNat - 48)) 0

/-- Parse a nonempty digit run into its value. -/
def parseNatNum (cs : List Char) : Option (Nat × List Char) :=
  let p := grabDigits cs
  if p.1.isEmpty then none else some (digitsVal p.1, p.2)

/-- Value of one hexadecimal digit character (either case). -/
def hexDigVal (c : Char) : Option Nat :=
  if 48 ≤ c.toNat ∧ c.toNat ≤ 57 then some (c.toNat - 48)
  else if 97 ≤ c.toNat ∧ c.toNat ≤ 102 then some (c.toNat - 87)
  else if 65 ≤ c.toNat ∧ c.toNat ≤ 70 then some (c.toNat - 55)
  else none

/-- Read exactly four hex digits, as after `\u`. -/
def readHex4 : List Char → Option (Nat × List Char)
  | a :: b :: c :: d :: r =>
    match hexDigVal a, hexDigVal b, hexDigVal c, hexDigVal d with
    | some va, some vb, some vc, some vd => some (((va * 16 + vb) * 16 + vc) * 16 + vd, r)
    | _, _, _, _ => none
  | _ => none

/-- Decode a single-character escape after a backslash. -/
def escDecode (c : Char) : Option Char :=
  if c = '"' then some '"'
  else if c = '\\' then some '\\'
  else if c = '/' then some '/'
  else if c = 'b' then some (Char.ofNat 8)
  else if c = 'f' then some (Char.ofNat 12)
  else if c = 'n' then some '\n'
  else if c = 'r' then some '\r'
  else if c = 't' then some '\t'
  else none

/-- Parse a string body after the opening quote, up to and including the
closing quote.  High/low `\u` surrogate pairs combine into one scalar, as
in CPython's scanner; raw control characters are rejected (strict mode). -/
def parseStrAux : Nat → List Char → Option (List Char × List Char)
  | 0, _ => none
  | fuel + 1, cs =>
    match cs with
    | [] => none
    | c :: r =>
      if c = '"' then some ([], r)
      else if c = '\\' then
        match r with
        | [] => none
        | e :: r1 =>
          if e = 'u' then
            match readHex4 r1 with
            | none => none
            | some (n, r2) =>
              if 55296 ≤ n ∧ n < 56320 then
                match r2 with
                | e2 :: e3 :: r3 =>
                  if e2 = '\\' ∧ e3 = 'u' then
                    match readHex4 r3 with
                    | none => none
                    | some (m, r4) =>
                      if 56320 ≤ m ∧ m < 57344 then
                        (parseStrAux fuel r4).map (fun p =>
                          (Char.ofNat (65536 + (n - 55296) * 1024 + (m - 56320)) :: p.1, p.2))
                      else none
                  else none
                | _ => none
              else if 56320 ≤ n ∧ n < 57344 then none
              else (parseStrAux fuel r2).map (fun p => (Char.ofNat n :: p.1, p.2))
          else
            match escDecode e with
            | none => none
            | some d => (parseStrAux fuel r1).map (fun p => (d :: p.1, p.2))
      else if c.toNat < 32 then none
      else (parseStrAux fuel r).map (fun p => (c :: p.1, p.2))

/-- Parse a string literal body; every step of `parseStrAux` consumes at
least one character, so `length + 1` fuel always suffices. -/
def parseStr (cs : List Char) : Option (String × List Char) :=
  (parseStrAux (cs.length + 1) cs).map (fun p => (⟨p.1⟩, p.2))

/-- Accumulate parsed object members with Python dict semantics: members
inserted in order, a duplicate key keeping its first position with the last
value. -/
def dictMerge (pairs : List (String × Json)) : List (String × Json) :=
  pairs.foldl (fun d kv => dictSet d kv.1 kv.2) []

mutual
/-- Parse one JSON value (fuel-bounded). -/
def parseVal : Nat → List Char → Option (Json × List Char)
  | 0, _ => none
  | fuel + 1, cs =>
    match skipWs cs with
    | [] => none
    | c :: r =>
      if c = 'n' then
        match r with
        | 'u' :: 'l' :: 'l' :: r2 => some (.null, r2)
        | _ => none
      else if c = 't' then
        match r with
        | 'r' :: 'u' :: 'e' :: r2 => some (.bool true, r2)
        | _ => none
      else if c = 'f' then
        match r with
        | 'a' :: 'l' :: 's' :: 'e' :: r2 => some (.bool false, r2)
        | _ => none
      else if c = '"' then (parseStr r).map (fun p => (.str p.1, p.2))
      else if c = '[' then
        match skipWs r with
        | [] => none
        | c2 :: r2 =>
          if c2 = ']' then some (.arr [], r2)
          else (parseItems fuel (c2 :: r2)).map (fun p => (.arr p.1, p.2))
      else if c = '{' then
        match skipWs r with
        | [] => none
        | c2 :: r2 =>
          if c2 = '}' then some (.obj [], r2)
          else (parseFields fuel (c2 :: r2)).map (fun p => (.obj (dictMerge p.1), p.2))
      else if c = '-' then (parseNatNum r).map (fun p => (.num (-(p.1 : Int)), p.2))
      else if isDig c then (parseNatNum (c :: r)).map (fun p => (.num (p.1 : Int), p.2))
      else none

/-- Parse one or more comma-separated array elements and the closing `]`. -/
def parseItems : Nat → List Char → Option (List Json × List Char)
  | 0, _ => none
  | fuel + 1, cs =>
    match parseVal fuel cs with
    | none => none
    | some (v, r) =>
      match skipWs r with
      | [] => none
      | c :: r2 =>
        if c = ',' then (parseItems fuel r2).map (fun p => (v :: p.1, p.2))
        else if c = ']' then some ([v], r2)
        else none

/-- Parse one or more `"key": value` members and the closing brace. -/
def parseFields : Nat → List Char → Option (List (String × Json) × List Char)
  | 0, _ => none
  | fuel + 1, cs =>
    match skipWs cs with
    | [] => none
    | c :: r =>
      if c = '"' then
        match parseStr r with
        | none => none
        | some (k, r1) =>
          match skipWs r1 with
          | [] => none
          | c2 :: r2 =>
            if c2 = ':' then
              match parseVal fuel r2 with
              | none => none
              | some (v, r3) =>
                match skipWs r3 with
                | [] => none
                | c3 :: r4 =>
                  if c3 = ',' then (parseFields fuel r4).map (fun p => ((k, v) :: p.1, p.2))
                  else if c3 = '}' then some ([(k, v)], r4)
                  else none
            else none
      else none
end

/-- `json.loads`: parse a complete document, allowing trailing whitespace
only.  The fuel bound exceeds the size of any value the input can encode. -/
def jsonParse (s : String) : Option Json :=
  match parseVal (s.data.length + 1) s.data with
  | some (j, r) => if skipWs r = [] then some j else none
  | none => none

example : jsonParse (jsonDumps (.obj [("a", .num 1), ("b", .arr [.null, .bool true])]))
    = some (.obj [("a", .num 1), ("b", .arr [.null, .bool true])]) := rfl

example : jsonParse ⟨dumpVal (.str "h\nié")⟩ = some (.str "h\nié") := rfl

example : jsonParse ⟨dumpVal (.num (-12))⟩ = some (.num (-12)) := rfl

example : jsonParse ⟨dumpVal (.str "a😀b")⟩ = some (.str "a😀b") := rfl

/-! ### UTF-8 (Python `str.encode()` / `bytes.decode()`) -/

/-- UTF-8 bytes of one Unicode scalar value. -/
def utf8Char (c : Char) : List Nat :=
  let n := c.toNat
  if n < 128 then [n]
  else if n < 2048 then [192 + n / 64, 128 + n % 64]
  else if n < 65536 then [224 + n / 4096, 128 + n / 64 % 64, 128 + n % 64]
  else [240 + n / 262144, 128 + n / 4096 % 64, 128 + n / 64 % 64, 128 + n % 64]

/-- `str.encode()`: UTF-8 bytes of a string. -/
def utf8Encode (s : String) : List Nat := (s.data.map utf8Char).flatten

/-- Fuel-bounded UTF-8 decoder.  Continuation bytes are checked; overlong
encodings, surrogate scalars and out-of-range code points are rejected,
as CPython's strict `bytes.decode()` rejects them. -/
def utf8DecodeAux : Nat → List Nat → Option (List Char)
  | _, [] => some []
  | 0, _ :: _ => none
  | fuel + 1, b :: bs =>
    if b < 128 then (utf8DecodeAux fuel bs).map (fun cs => Char.ofNat b :: cs)
    else if b < 192 then none
    else if b < 224 then
      match bs with
      | b2 :: bs2 =>
        if 128 ≤ b2 ∧ b2 < 192 then
          let n := (b - 192) * 64 + (b2 - 128)
          if 128 ≤ n then (utf8DecodeAux fuel bs2).map (fun cs => Char.ofNat n :: cs)
          else none
        else none
      | _ => none
    else if b < 240 then
      match bs with
      | b2 :: b3 :: bs3 =>
        if 128 ≤ b2 ∧ b2 < 192 ∧ 128 ≤ b3 ∧ b3 < 192 then
          let n := (b - 224) * 4096 + (b2 - 128) * 64 + (b3 - 128)
          if 2048 ≤ n ∧ ¬(55296 ≤ n ∧ n < 57344) then
            (utf8DecodeAux fuel bs3).map (fun cs => Char.ofNat n :: cs)
          else none
        else none
      | _ => none
    else if b < 245 then
      match bs with
      | b2 :: b3 :: b4 :: bs4 =>
        if 128 ≤ b2 ∧ b2 < 192 ∧ 128 ≤ b3 ∧ b3 < 192 ∧ 128 ≤ b4 ∧ b4 < 192 then
          let n := (b - 240) * 262144 + (b2 - 128) * 4096 + (b3 - 128) * 64 + (b4 - 128)
          if 65536 ≤ n ∧ n < 1114112 then
            (utf8DecodeAux fuel bs4).map (fun cs => Char.ofNat n :: cs)
          else none
        else none
      | _ => none
    else none

/-- `bytes.decode()`: UTF-8 decoding of a byte list; each decoder step
consumes at least one byte, so `length + 1` fuel always suffices. -/
def utf8Decode (bs : List Nat) : Option String :=
  (utf8DecodeAux (bs.length + 1) bs).map (fun cs => (⟨cs⟩ : String))

example : utf8Decode (utf8Encode "aé€😀") = some "aé€😀" := rfl

/-! ### Base64 (`base64.b64encode` / `b64decode`, standard alphabet) -/

/-- Byte of the standard base64 alphabet character for a 6-bit value. -/
def b64Char (n : Nat) : Nat :=
  if n < 26 then 65 + n
  else if n < 52 then 71 + n
  else if n < 62 then n - 4
  else if n = 62 then 43
  else 47

/-- `base64.b64encode`: bytes to base64 alphabet bytes, `=`-padded. -/
def b64encode : List Nat → List Nat
  | a :: b :: c :: bs =>
    b64Char (a / 4) :: b64Char (a % 4 * 16 + b / 16) ::
      b64Char (b % 16 * 4 + c / 64) :: b64Char (c % 64) :: b64encode bs
  | [a, b] => [b64Char (a / 4), b64Char (a % 4 * 16 + b / 16), b64Char (b % 16 * 4), 61]
  | [a] => [b64Char (a / 4), b64Char (a % 4 * 16), 61, 61]
  | [] => []

/-- 6-bit value of a base64 alphabet byte. -/
def b64Val (x : Nat) : Option Nat :=
  if 65 ≤ x ∧ x ≤ 90 then some (x - 65)
  else if 97 ≤ x ∧ x ≤ 122 then some (x - 71)
  else if 48 ≤ x ∧ x ≤ 57 then some (x + 4)
  else if x = 43 then some 62
  else if x = 47 then some 63
  else none

/-- Base64 decoding: the mathematical inverse of `b64encode` (CPython's
`b64decode` in addition silently drops bytes outside the alphabet, a
laxness no encoder output triggers). -/
def b64decode : List Nat → Option (List Nat)
  | [] => some []
  | w :: x :: y :: z :: rest =>
    match b64Val w, b64Val x with
    | some a, some b =>
      if y = 61 then
        if z = 61 ∧ rest = [] then some [a * 4 + b / 16] else none
      else
        match b64Val y with
        | some c =>
          if z = 61 then
            if rest = [] then some [a * 4 + b / 16, b % 16 * 16 + c / 4] else none
          else
            match b64Val z with
            | some d =>
              (b64decode rest).map
                (fun t => (a * 4 + b / 16) :: (b % 16 * 16 + c / 4) :: (c % 4 * 64 + d) :: t)
            | none => none
        | none => none
    | _, _ => none
  | _ => none

example : b64encode (utf8Encode "hi!") = utf8Encode "aGkh" := by decide

example : b64decode (b64encode [0, 255, 17, 3, 200]) = some [0, 255, 17, 3, 200] := by decide

/-! ### The builder (`build.py`)

The filesystem visible to one package is embedded as data:

* the manifest file is `Option (Option Json)` — `none` when
  `manifest.json` is absent (Python `FileNotFoundError`), `some none` when
  present but not parseable JSON (`json.JSONDecodeError`), `some (some j)`
  when `json.load` yields `j` (a top-level non-object manifest is also
  representable, and `build_package` faults on it as the Python item
  assignment would);
* the `source` subdirectory is `Option SourceTree`, where a `SourceTree`
  lists, in `os.walk` visiting order, every directory of the tree as its
  component path relative to the source root together with its regular
  file names — exactly the `(root, files)` pairs `os.walk` yields, with
  `root` recoverable by folding `os.path.join` from the walk's starting
  path (the source root always exists when the tree is `some`, and a
  nonexistent path makes `os.walk` yield nothing);
* `contents` gives the text that reading a collected relative path returns
  (collected files exist, so reads succeed).

Python exceptions travel through `Except BuildErr`. -/

/-- Directories of a source tree in `os.walk` order: component path
relative to the walk root, plus the directory's regular file names. -/
abbrev SourceTree := List (List String × List String)

/-- `os.path.join(a, b)` for a nonempty `a` and a relative, slash-free
`b` — the only shape `os.walk` produces here. -/
def osJoin (a b : String) : String :=
  if a.data.getLast? = some '/' then a ++ b else a ++ "/" ++ b

/-- Python `str.removeprefix`. -/
def removePre (s p : String) : String :=
  if p.data.isPrefixOf s.data then ⟨s.data.drop p.data.length⟩ else s

def PACKAGES_ROOT_SRC_DIR : String := "./packages"

def PACKAGES_SRC_DIR : String := "source"

def MANIFEST_FILE : String := "manifest.json"

def PACKAGES_POOL_DIR : String := "./pool"

def INDEX_FILE : String := "index.json"

/-- The `path` variable of `get_package_files`: the walk's starting point,
with its trailing slash. -/
def sourceRoot (name : String) : String :=
  PACKAGES_ROOT_SRC_DIR ++ "/" ++ name ++ "/" ++ PACKAGES_SRC_DIR ++ "/"

/-- The `root` value `os.walk` reports for the directory with the given
component path: `os.path.join` folded from the starting point. -/
def walkRoot (name : String) (comps : List String) : String :=
  comps.foldl osJoin (sourceRoot name)

/-- `get_package_files`: for every directory of the walk, every file name
mapped to `root.removeprefix(path) + "/" + file`, extended in walk order. -/
def get_package_files (name : String) (src : Option SourceTree) : List String :=
  match src with
  | none => []
  | some tree =>
    (tree.map (fun d =>
      d.2.map (fun file => removePre (walkRoot name d.1) (sourceRoot name) ++ "/" ++ file))).flatten

/-- Errors that abort the whole run (uncaught Python exceptions). -/
inductive BuildErr where
  | jsonDecodeErr
  | typeErr
  | keyErr
deriving DecidableEq

/-- One package directory as the builder observes it. -/
structure Package where
  name : String
  manifest : Option (Option Json)
  source : Option SourceTree
  contents : String → String

/-- `get_manifest`: absent file is caught (`FileNotFoundError`) and turned
into an explicit `none`; malformed content raises past the function. -/
def get_manifest (p : Package) : Except BuildErr (Option Json) :=
  match p.manifest with
  | none => .ok none
  | some none => .error .jsonDecodeErr
  | some (some j) => .ok (some j)

/-- One `files` entry: the file's text and the SHA-256 hex digest of its
UTF-8 bytes (`hashlib.sha256(content.encode()).hexdigest()`), for the
abstract digest function `sha`. -/
def fileEntry (sha : List Nat → String) (content : String) : Json :=
  .obj [("content", .str content), ("digest", .str (sha (utf8Encode content)))]

/-- The item assignment `manifest["files"][path] = entry` on the model:
rewrite the `files` slot, updating its object in place. -/
def filesAssign (kvs : List (String × Json)) (path : String) (entry : Json) :
    List (String × Json) :=
  kvs.map (fun kv =>
    if kv.1 = "files" then
      (kv.1, match kv.2 with
             | .obj fs => Json.obj (dictSet fs path entry)
             | other => other)
    else kv)

/-- `build_package`: skip without a manifest, else reset `files` to an
empty object and fold every collected file's entry into it.  A manifest
that is not a JSON object faults on `manifest["files"] = ...`
(Python `TypeError`), aborting the run. -/
def build_package (sha : List Nat → String) (p : Package) : Except BuildErr (Option Json) :=
  match get_manifest p with
  | .error e => .error e
  | .ok none => .ok none
  | .ok (some manifest) =>
    match manifest with
    | .obj kvs =>
      let kvs0 := dictSet kvs "files" (.obj [])
      let kvs1 := (get_package_files p.name p.source).foldl
        (fun acc path => filesAssign acc path (fileEntry sha (p.contents path))) kvs0
      .ok (some (.obj kvs1))
    | _ => .error .typeErr

/-- `compress`: serialize, deflate at maximum level (abstract
`zlibCompress`), base64-encode. -/
def compress (zlibCompress : List Nat → List Nat) (package : Json) : List Nat :=
  b64encode (zlibCompress (utf8Encode (jsonDumps package)))

/-- Python `str()` of a JSON-loaded value, as an f-string interpolates it.
Containers are approximated by their JSON dump (Python `repr` differs in
quoting); a manifest `version` is a string or number in practice, where
this is exact. -/
def pyStr : Json → String
  | .str s => s
  | .num n => ⟨intRepr n⟩
  | .bool true => "True"
  | .bool false => "False"
  | .null => "None"
  | .arr es => ⟨dumpVal (.arr es)⟩
  | .obj ms => ⟨dumpVal (.obj ms)⟩

/-- Key lookup on a JSON object value, Python `package["version"]`. -/
def jGet (j : Json) (k : String) : Option Json :=
  match j with
  | .obj d => dictGet d k
  | _ => none

/-- The archive path `f"{PACKAGES_POOL_DIR}/{name}.{package['version']}.ccp"`. -/
def ccpName (name : String) (version : Json) : String :=
  PACKAGES_POOL_DIR ++ "/" ++ name ++ "." ++ pyStr version ++ ".ccp"

/-- A package's index entry, `{"version": ..., "digest": ...}`. -/
structure IndexEntry where
  version : Json
  digest : String

/-- `write_package`: build, compress, then write
`<pool>/<name>.<version>.ccp` and return the index entry.  The written
file is reported as its path together with the bytes stored on disk: the
archive is pure ASCII, so writing `data.decode()` in text mode stores
exactly `data`.  A manifest without `"version"` faults the lookup in the
file name (Python `KeyError`) — after compression, before any write. -/
def write_package (sha : List Nat → String) (zlibCompress : List Nat → List Nat)
    (p : Package) : Except BuildErr (Option ((String × List Nat) × IndexEntry)) :=
  match build_package sha p with
  | .error e => .error e
  | .ok none => .ok none
  | .ok (some package) =>
    let data := compress zlibCompress package
    match jGet package "version" with
    | none => .error .keyErr
    | some v => .ok (some ((ccpName p.name v, data), ⟨v, sha data⟩))

/-- The `__main__` driver over the packages in directory order: written
archive files in order, and the accumulated `packages` index. -/
def mainRun (sha : List Nat → String) (zlibCompress : List Nat → List Nat) :
    List Package → Except BuildErr (List (String × List Nat) × List (String × IndexEntry))
  | [] => .ok ([], [])
  | p :: ps =>
    match write_package sha zlibCompress p with
    | .error e => .error e
    | .ok none => mainRun sha zlibCompress ps
    | .ok (some (file, entry)) =>
      (mainRun sha zlibCompress ps).map (fun r => (file :: r.1, (p.name, entry) :: r.2))

/-- The index document `json.dumps(packages)` serializes. -/
def index_json (idx : List (String × IndexEntry)) : Json :=
  .obj (idx.map (fun e => (e.1, .obj [("version", e.2.version), ("digest", .str e.2.digest)])))

/-- Bytes of the written `index.json`. -/
def indexFileBytes (idx : List (String × IndexEntry)) : List Nat :=
  utf8Encode (jsonDumps (index_json idx))

/-- Decoding an archive as the spec describes: base64-decode, decompress
(abstract `zlibDecompress`), UTF-8-decode, JSON-parse. -/
def decodeArchive (zlibDecompress : List Nat → List Nat) (payload : List Nat) : Option Json :=
  match b64decode payload with
  | none => none
  | some comp =>
    match utf8Decode (zlibDecompress comp) with
    | none => none
    | some s => jsonParse s

/-- Contract of the abstract zlib pair: on byte lists, decompression
inverts compression, and compressed output is again a byte list. -/
def ValidZlib (zc zd : List Nat → List Nat) : Prop :=
  ∀ bs : List Nat, (∀ x ∈ bs, x < 256) → zd (zc bs) = bs ∧ ∀ x ∈ zc bs, x < 256

example :
    get_package_files "p" (some [([], ["a.txt", "b.txt"]), (["sub"], ["c.txt"])])
      = ["/a.txt", "/b.txt", "sub/c.txt"] := by decide

example :
    decodeArchive id (compress id (.obj [("version", .str "1.0.0"), ("files", .obj [])]))
      = some (.obj [("version", .str "1.0.0"), ("files", .obj [])]) := rfl

/-! ### Generic helpers -/

theorem string_mk_inj {s t : String} (h : s.data = t.data) : s = t := by
  cases s; cases t; exact congrArg String.mk h

theorem char_toNat_ofNat {n : Nat} (h : n.isValidChar) : (Char.ofNat n).toNat = n := by
  simp [Char.ofNat, h, Char.ofNatAux, Char.toNat, UInt32.toNat, BitVec.toNat_ofNatLt]

theorem char_toNat_bounds (c : Char) :
    c.toNat < 55296 ∨ (57343 < c.toNat ∧ c.toNat < 1114112) := by
  rcases c.valid with h | h
  · exact Or.inl h
  · exact Or.inr h

theorem char_toNat_valid (c : Char) : c.toNat.isValidChar := by
  rcases char_toNat_bounds c with h | h
  · exact Or.inl h
  · exact Or.inr h

theorem char_toNat_inj {a b : Char} (h : a.toNat = b.toNat) : a = b := by
  have := congrArg Char.ofNat h
  rwa [Char.ofNat_toNat, Char.ofNat_toNat] at this

theorem takeWhile_append_stop {α} (p : α → Bool) (l : List α) (y : α) (ys : List α)
    (h1 : ∀ x ∈ l, p x = true) (h2 : p y = false) :
    (l ++ y :: ys).takeWhile p = l := by
  induction l with
  | nil => simp [List.takeWhile, h2]
  | cons a t ih => simp_all [List.takeWhile]

theorem dropWhile_append_stop {α} (p : α → Bool) (l : List α) (y : α) (ys : List α)
    (h1 : ∀ x ∈ l, p x = true) (h2 : p y = false) :
    (l ++ y :: ys).dropWhile p = y :: ys := by
  induction l with
  | nil => simp [List.dropWhile, h2]
  | cons a t ih => simp_all [List.dropWhile]

/-- Splitting a list at its last occurrence of a separator is unambiguous
when the suffixes are separator-free. -/
theorem last_sep_split {α} [DecidableEq α] (sep : α) (a b f g : List α)
    (hf : ∀ x ∈ f, x ≠ sep) (hg : ∀ x ∈ g, x ≠ sep)
    (h : a ++ sep :: f = b ++ sep :: g) : a = b ∧ f = g := by
  have hrev : f.reverse ++ sep :: a.reverse = g.reverse ++ sep :: b.reverse := by
    have := congrArg List.reverse h
    simpa using this
  have hp : ∀ x ∈ f.reverse, (fun z => decide (z ≠ sep)) x = true := by
    intro x hx; simpa using hf x (List.mem_reverse.mp hx)
  have hq : ∀ x ∈ g.reverse, (fun z => decide (z ≠ sep)) x = true := by
    intro x hx; simpa using hg x (List.mem_reverse.mp hx)
  have hsep : (fun z => decide (z ≠ sep)) sep = false := by simp
  have htake : f.reverse = g.reverse := by
    have t1 := takeWhile_append_stop (fun z => decide (z ≠ sep)) f.reverse sep a.reverse hp hsep
    have t2 := takeWhile_append_stop (fun z => decide (z ≠ sep)) g.reverse sep b.reverse hq hsep
    rw [← t1, ← t2, hrev]
  have hdrop : sep :: a.reverse = sep :: b.reverse := by
    have t1 := dropWhile_append_stop (fun z => decide (z ≠ sep)) f.reverse sep a.reverse hp hsep
    have t2 := dropWhile_append_stop (fun z => decide (z ≠ sep)) g.reverse sep b.reverse hq hsep
    rw [← t1, ← t2, hrev]
  constructor
  · have : a.reverse = b.reverse := by injection hdrop
    simpa using congrArg List.reverse this
  · simpa using congrArg List.reverse htake

/-! ### Dictionary lemmas -/

theorem dictHas_eq_false_iff (d : List (String × Json)) (k : String) :
    dictHas d k = false ↔ ∀ kv ∈ d, kv.1 ≠ k := by
  simp [dictHas, List.any_eq_true]

theorem dictGet_map_self (d : List (String × Json)) (k : String) (v : Json) :
    dictGet (d.map (fun kv => if kv.1 = k then (k, v) else kv)) k
      = if dictHas d k then some v else none := by
  induction d with
  | nil => simp [dictGet, dictHas]
  | cons kv d ih =>
    by_cases h : kv.1 = k
    · simp [dictGet, dictHas, h]
    · simp only [List.map_cons, if_neg h]
      rw [dictGet, if_neg h, ih]
      have : dictHas (kv :: d) k = dictHas d k := by
        simp [dictHas, List.any_cons, h]
      rw [this]

theorem dictGet_append_last (d : List (String × Json)) (k : String) (v : Json)
    (h : dictHas d k = false) :
    dictGet (d ++ [(k, v)]) k = some v := by
  induction d with
  | nil => simp [dictGet]
  | cons kv d ih =>
    have hne : kv.1 ≠ k := (dictHas_eq_false_iff _ _).mp h kv (by simp)
    have ht : dictHas d k = false := by
      rw [dictHas_eq_false_iff]
      intro kv2 h2
      exact (dictHas_eq_false_iff _ _).mp h kv2 (by simp [h2])
    simpa [dictGet, hne] using ih ht

theorem dictGet_dictSet_self (d : List (String × Json)) (k : String) (v : Json) :
    dictGet (dictSet d k v) k = some v := by
  rw [dictSet]
  by_cases h : dictHas d k
  · rw [if_pos h, dictGet_map_self, if_pos h]
  · rw [if_neg h, dictGet_append_last]
    exact Bool.of_not_eq_true h

theorem dictGet_map_ne (d : List (String × Json)) (k k' : String) (v : Json)
    (h : k' ≠ k) :
    dictGet (d.map (fun kv => if kv.1 = k then (k, v) else kv)) k' = dictGet d k' := by
  induction d with
  | nil => rfl
  | cons kv d ih =>
    by_cases he : kv.1 = k
    · have hkk : ¬(k = k') := fun e => h e.symm
      simp [dictGet, he, hkk, ih]
    · by_cases he2 : kv.1 = k'
      · simp [dictGet, he, he2, h]
      · simp [dictGet, he, he2, ih]

theorem dictGet_append_ne (d : List (String × Json)) (k k' : String) (v : Json)
    (h : k' ≠ k) : dictGet (d ++ [(k, v)]) k' = dictGet d k' := by
  induction d with
  | nil => simp [dictGet, Ne.symm h]
  | cons kv d ih =>
    rw [List.cons_append, dictGet, dictGet]
    split <;> simp [ih]

theorem dictGet_dictSet_ne (d : List (String × Json)) (k k' : String) (v : Json)
    (h : k' ≠ k) : dictGet (dictSet d k v) k' = dictGet d k' := by
  rw [dictSet]
  by_cases hh : dictHas d k
  · rw [if_pos hh, dictGet_map_ne _ _ _ _ h]
  · rw [if_neg hh, dictGet_append_ne _ _ _ _ h]

theorem dictSet_fresh (d : List (String × Json)) (k : String) (v : Json)
    (h : dictHas d k = false) : dictSet d k v = d ++ [(k, v)] := by
  simp [dictSet, h]

theorem dictHas_append (d1 d2 : List (String × Json)) (k : String) :
    dictHas (d1 ++ d2) k = (dictHas d1 k || dictHas d2 k) := by
  simp [dictHas, List.any_append]

theorem dictSet_append_fresh (d1 d2 : List (String × Json)) (k : String) (v : Json)
    (h : dictHas d1 k = false) :
    dictSet (d1 ++ d2) k v = d1 ++ dictSet d2 k v := by
  have hmap : d1.map (fun kv => if kv.1 = k then (k, v) else kv) = d1 := by
    conv_rhs => rw [← List.map_id d1]
    exact List.map_congr_left (fun kv hkv => by
      simp [if_neg ((dictHas_eq_false_iff _ _).mp h kv hkv)])
  rw [dictSet, dictSet, dictHas_append, h]
  by_cases h2 : dictHas d2 k
  · simp [h2, List.map_append, hmap]
  · simp [h2, List.append_assoc]

theorem dictFoldIns_append (pairs : List (String × Json)) (d1 d2 : List (String × Json))
    (h : ∀ kv ∈ pairs, dictHas d1 kv.1 = false) :
    pairs.foldl (fun d kv => dictSet d kv.1 kv.2) (d1 ++ d2)
      = d1 ++ pairs.foldl (fun d kv => dictSet d kv.1 kv.2) d2 := by
  induction pairs generalizing d2 with
  | nil => rfl
  | cons kv ps ih =>
    rw [List.foldl_cons, List.foldl_cons, dictSet_append_fresh _ _ _ _ (h kv (by simp))]
    exact ih _ (fun kv2 h2 => h kv2 (by simp [h2]))

theorem dictMerge_of_nodup (ms : List (String × Json)) (h : nodupKeys ms = true) :
    dictMerge ms = ms := by
  induction ms with
  | nil => rfl
  | cons kv ms ih =>
    obtain ⟨a, b⟩ := kv
    rw [nodupKeys, Bool.and_eq_true] at h
    have hany : ms.any (fun kv2 => kv2.1 == (a, b).1) = false := by
      have := h.1
      rwa [Bool.not_eq_eq_eq_not, Bool.not_true] at this
    have hfresh : ∀ kv2 ∈ ms, dictHas [(a, b)] kv2.1 = false := by
      intro kv2 h2
      have h3 := List.any_eq_false.mp hany kv2 h2
      have h4 : kv2.1 ≠ a := by simpa using h3
      simp [dictHas, beq_eq_false_iff_ne]
      exact Ne.symm h4
    have step : dictSet [] a b = [(a, b)] := rfl
    rw [dictMerge, List.foldl_cons, step,
      show ([(a, b)] : List (String × Json)) = [(a, b)] ++ [] from by simp,
      dictFoldIns_append _ _ _ hfresh]
    rw [dictMerge] at ih
    rw [ih h.2]
    rfl

/-! ### Decimal rendering and its inverse -/

theorem digChar_toNat {n : Nat} (h : n < 10) : (digChar n).toNat = 48 + n := by
  rw [digChar, char_toNat_ofNat (Or.inl (by omega))]

theorem natReprAux_digits :
    ∀ fuel n, ∀ c ∈ natReprAux fuel n, 48 ≤ c.toNat ∧ c.toNat ≤ 57 := by
  intro fuel
  induction fuel with
  | zero => intro n c hc; simp [natReprAux] at hc
  | succ f ih =>
    intro n c hc
    rw [natReprAux] at hc
    by_cases h : n < 10
    · rw [if_pos h] at hc
      rcases List.mem_singleton.mp hc with rfl
      rw [digChar_toNat h]; omega
    · rw [if_neg h] at hc
      rcases List.mem_append.mp hc with h2 | h2
      · exact ih _ c h2
      · rcases List.mem_singleton.mp h2 with rfl
        rw [digChar_toNat (Nat.mod_lt _ (by omega))]
        have := Nat.mod_lt n (show 0 < 10 by omega)
        omega

theorem natReprAux_ne_nil : ∀ fuel n, n < fuel → natReprAux fuel n ≠ [] := by
  intro fuel
  induction fuel with
  | zero => intro n h; omega
  | succ f ih =>
    intro n h
    rw [natReprAux]
    by_cases h10 : n < 10
    · simp [h10]
    · rw [if_neg h10]
      simp

theorem digitsVal_append_one (ds : List Char) (d : Char) :
    digitsVal (ds ++ [d]) = digitsVal ds * 10 + (d.toNat - 48) := by
  rw [digitsVal, digitsVal, List.foldl_append]
  rfl

theorem digitsVal_natReprAux : ∀ fuel n, n < fuel → digitsVal (natReprAux fuel n) = n := by
  intro fuel
  induction fuel with
  | zero => intro n h; omega
  | succ f ih =>
    intro n h
    rw [natReprAux]
    by_cases h10 : n < 10
    · rw [if_pos h10]
      show digitsVal [digChar n] = n
      rw [digitsVal, List.foldl_cons, List.foldl_nil, digChar_toNat h10]
      omega
    · rw [if_neg h10, digitsVal_append_one, ih _ (by
        have := Nat.div_lt_self (show 0 < n by omega) (show 1 < 10 by omega)
        omega)]
      rw [digChar_toNat (Nat.mod_lt _ (by omega))]
      have := Nat.mod_lt n (show 0 < 10 by omega)
      have := Nat.div_mul_le_self n 10
      omega

theorem natRepr_digits (n : Nat) : ∀ c ∈ natRepr n, 48 ≤ c.toNat ∧ c.toNat ≤ 57 :=
  natReprAux_digits (n + 1) n

theorem natRepr_ne_nil (n : Nat) : natRepr n ≠ [] :=
  natReprAux_ne_nil (n + 1) n (by omega)

theorem digitsVal_natRepr (n : Nat) : digitsVal (natRepr n) = n :=
  digitsVal_natReprAux (n + 1) n (by omega)

theorem natRepr_head (n : Nat) : ∃ c t, natRepr n = c :: t ∧ isDig c = true := by
  match h : natRepr n with
  | [] => exact absurd h (natRepr_ne_nil n)
  | c :: t =>
    refine ⟨c, t, rfl, ?_⟩
    have := natRepr_digits n c (by rw [h]; simp)
    simp [isDig]
    omega

theorem natRepr_all_isDig (n : Nat) : ∀ c ∈ natRepr n, isDig c = true := by
  intro c hc
  have := natRepr_digits n c hc
  simp [isDig]
  omega

/-- A remainder that cannot extend a digit run. -/
def noDigHead : List Char → Bool
  | [] => true
  | c :: _ => !isDig c

theorem grabDigits_stop (cs : List Char) (h : noDigHead cs = true) :
    grabDigits cs = ([], cs) := by
  match cs with
  | [] => rfl
  | c :: t =>
    rw [noDigHead, Bool.not_eq_eq_eq_not, Bool.not_true] at h
    simp [grabDigits, h]

theorem grabDigits_run (ds rest : List Char) (h1 : ∀ c ∈ ds, isDig c = true)
    (h2 : noDigHead rest = true) : grabDigits (ds ++ rest) = (ds, rest) := by
  induction ds with
  | nil => simpa using grabDigits_stop rest h2
  | cons c t ih =>
    have hc : isDig c = true := h1 c (by simp)
    have ht := ih (fun x hx => h1 x (by simp [hx]))
    simp [grabDigits, hc, ht]

theorem parseNatNum_natRepr (n : Nat) (rest : List Char) (h : noDigHead rest = true) :
    parseNatNum (natRepr n ++ rest) = some (n, rest) := by
  rw [parseNatNum, grabDigits_run _ _ (natRepr_all_isDig n) h]
  simp [natRepr_ne_nil n, digitsVal_natRepr n]

/-! ### String escaping and its inverse -/

theorem hexDigVal_hexChar {d : Nat} (h : d < 16) : hexDigVal (hexChar d) = some d := by
  have hall : ∀ d, d < 16 → hexDigVal (hexChar d) = some d := by decide
  exact hall d h

theorem readHex4_hexQuad (n : Nat) (h : n < 65536) (rest : List Char) :
    readHex4 (hexQuad n ++ rest) = some (n, rest) := by
  have h1 : n / 4096 % 16 < 16 := Nat.mod_lt _ (by omega)
  have h2 : n / 256 % 16 < 16 := Nat.mod_lt _ (by omega)
  have h3 : n / 16 % 16 < 16 := Nat.mod_lt _ (by omega)
  have h4 : n % 16 < 16 := Nat.mod_lt _ (by omega)
  show readHex4 (hexChar (n / 4096 % 16) :: hexChar (n / 256 % 16) ::
    hexChar (n / 16 % 16) :: hexChar (n % 16) :: rest) = some (n, rest)
  have hsum : ((n / 4096 % 16 * 16 + n / 256 % 16) * 16 + n / 16 % 16) * 16 + n % 16 = n := by
    omega
  simp [readHex4, hexDigVal_hexChar h1, hexDigVal_hexChar h2, hexDigVal_hexChar h3,
    hexDigVal_hexChar h4, hsum]

theorem parseStrAux_u_pair (fuel : Nat) (tail : List Char) (nH nL : Nat)
    (hH : 55296 ≤ nH ∧ nH < 56320) (hL : 56320 ≤ nL ∧ nL < 57344) :
    parseStrAux (fuel + 1)
        ('\\' :: 'u' :: (hexQuad nH ++ ('\\' :: 'u' :: (hexQuad nL ++ tail))))
      = (parseStrAux fuel tail).map
          (fun p => (Char.ofNat (65536 + (nH - 55296) * 1024 + (nL - 56320)) :: p.1, p.2)) := by
  have hH16 : nH < 65536 := by omega
  have hL16 : nL < 65536 := by omega
  simp [parseStrAux, readHex4_hexQuad _ hH16, readHex4_hexQuad _ hL16, hH, hL]

/-- Parsing one escaped character undoes `escChar` and continues with the
remaining fuel. -/
theorem parseStrAux_escChar (c : Char) (fuel : Nat) (tail : List Char) :
    parseStrAux (fuel + 1) (escChar c ++ tail)
      = (parseStrAux fuel tail).map (fun p => (c :: p.1, p.2)) := by
  by_cases h1 : c = '"'
  · subst h1
    simp [escChar, parseStrAux, escDecode]
  by_cases h2 : c = '\\'
  · subst h2
    simp [escChar, parseStrAux, escDecode]
  by_cases h3 : c.toNat = 8
  · have hc : c = Char.ofNat 8 := char_toNat_inj (by rw [h3, char_toNat_ofNat (Or.inl (by omega))])
    rw [escChar, if_neg h1, if_neg h2, if_pos h3]
    simp [parseStrAux, escDecode, hc]
  by_cases h4 : c.toNat = 12
  · have hc : c = Char.ofNat 12 :=
      char_toNat_inj (by rw [h4, char_toNat_ofNat (Or.inl (by omega))])
    rw [escChar, if_neg h1, if_neg h2, if_neg h3, if_pos h4]
    simp [parseStrAux, escDecode, hc]
  by_cases h5 : c.toNat = 10
  · have hc : c = '\n' := char_toNat_inj (by rw [h5]; rfl)
    rw [escChar, if_neg h1, if_neg h2, if_neg h3, if_neg h4, if_pos h5]
    simp [parseStrAux, escDecode, hc]
  by_cases h6 : c.toNat = 13
  · have hc : c = '\r' := char_toNat_inj (by rw [h6]; rfl)
    rw [escChar, if_neg h1, if_neg h2, if_neg h3, if_neg h4, if_neg h5, if_pos h6]
    simp [parseStrAux, escDecode, hc]
  by_cases h7 : c.toNat = 9
  · have hc : c = '\t' := char_toNat_inj (by rw [h7]; rfl)
    rw [escChar, if_neg h1, if_neg h2, if_neg h3, if_neg h4, if_neg h5, if_neg h6, if_pos h7]
    simp [parseStrAux, escDecode, hc]
  by_cases h8 : 32 ≤ c.toNat ∧ c.toNat ≤ 126
  · rw [escChar, if_neg h1, if_neg h2, if_neg h3, if_neg h4, if_neg h5, if_neg h6, if_neg h7,
      if_pos h8]
    have h32 : ¬c.toNat < 32 := by omega
    simp [parseStrAux, h1, h2, h32]
  by_cases h9 : c.toNat < 65536
  · rw [escChar, if_neg h1, if_neg h2, if_neg h3, if_neg h4, if_neg h5, if_neg h6, if_neg h7,
      if_neg h8, if_pos h9]
    have hval := char_toNat_bounds c
    have hns1 : ¬(55296 ≤ c.toNat ∧ c.toNat < 56320) := by omega
    have hns2 : ¬(56320 ≤ c.toNat ∧ c.toNat < 57344) := by omega
    simp [parseStrAux, readHex4_hexQuad c.toNat h9 tail, hns1, hns2, Char.ofNat_toNat]
  · rw [escChar, if_neg h1, if_neg h2, if_neg h3, if_neg h4, if_neg h5, if_neg h6, if_neg h7,
      if_neg h8, if_neg h9]
    have hval := char_toNat_bounds c
    have hmod := Nat.mod_lt (c.toNat - 65536) (show 0 < 1024 by omega)
    have hin1 : 55296 ≤ 55296 + (c.toNat - 65536) / 1024 ∧
        55296 + (c.toNat - 65536) / 1024 < 56320 := by omega
    have hin2 : 56320 ≤ 56320 + (c.toNat - 65536) % 1024 ∧
        56320 + (c.toNat - 65536) % 1024 < 57344 := by omega
    simp only [List.cons_append, List.append_assoc]
    rw [parseStrAux_u_pair fuel tail _ _ hin1 hin2]
    have hrec : 65536 + (55296 + (c.toNat - 65536) / 1024 - 55296) * 1024 +
        (56320 + (c.toNat - 65536) % 1024 - 56320) = c.toNat := by omega
    rw [hrec, Char.ofNat_toNat]

/-- Parsing an escaped run stops exactly at the closing quote. -/
theorem parseStrAux_escBody : ∀ (cs : List Char) (fuel : Nat) (rest : List Char),
    cs.length < fuel →
    parseStrAux fuel ((cs.map escChar).flatten ++ '"' :: rest) = some (cs, rest) := by
  intro cs
  induction cs with
  | nil =>
    intro fuel rest h
    match fuel, h with
    | f + 1, _ => simp [parseStrAux]
  | cons c t ih =>
    intro fuel rest h
    match fuel, h with
    | f + 1, h =>
      rw [List.map_cons, List.flatten_cons, List.append_assoc, parseStrAux_escChar,
        ih f rest (by simpa using Nat.lt_of_succ_lt_succ h)]
      rfl

theorem escChar_length_pos (c : Char) : 1 ≤ (escChar c).length := by
  rw [escChar]
  repeat' split
  all_goals simp

theorem escList_length (cs : List Char) : cs.length ≤ ((cs.map escChar).flatten).length := by
  induction cs with
  | nil => simp
  | cons c t ih =>
    rw [List.map_cons, List.flatten_cons, List.length_append, List.length_cons]
    have := escChar_length_pos c
    omega

/-- The string-literal round trip: `parseStr` inverts `dumpStr` past the
opening quote, whatever follows the closing quote. -/
theorem parseStr_dumpStr (s : String) (rest : List Char) :
    parseStr (escBody s ++ '"' :: rest) = some (s, rest) := by
  have h1 := escList_length s.data
  rw [parseStr, escBody]
  rw [parseStrAux_escBody s.data _ rest (by
    rw [List.length_append]
    omega)]
  rfl

/-! ### The serializer/parser round trip -/

/-- A remainder a value may legally be followed by: end of input or a
structural delimiter. -/
def stopTok : List Char → Bool
  | [] => true
  | c :: _ => c == ',' || c == ']' || c == '}'

theorem stopTok_noDigHead {rest : List Char} (h : stopTok rest = true) :
    noDigHead rest = true := by
  match rest with
  | [] => rfl
  | c :: t =>
    rw [stopTok] at h
    rw [noDigHead]
    rcases Bool.or_eq_true_iff.mp h with h2 | h2
    · rcases Bool.or_eq_true_iff.mp h2 with h3 | h3 <;>
        (rw [eq_of_beq h3]; decide)
    · rw [eq_of_beq h2]; decide

theorem isDig_props {c : Char} (h : isDig c = true) :
    isWsC c = false ∧ c ≠ 'n' ∧ c ≠ 't' ∧ c ≠ 'f' ∧ c ≠ '"' ∧ c ≠ '[' ∧ c ≠ '{' ∧
      c ≠ '-' := by
  have hsp : c ≠ ' ' := fun e => absurd h (by subst e; decide)
  have htb : c ≠ '\t' := fun e => absurd h (by subst e; decide)
  have hnl : c ≠ '\n' := fun e => absurd h (by subst e; decide)
  have hcr : c ≠ '\r' := fun e => absurd h (by subst e; decide)
  refine ⟨by simp [isWsC, hsp, htb, hnl, hcr], ?_, ?_, ?_, ?_, ?_, ?_, ?_⟩ <;>
    exact fun e => absurd h (by subst e; decide)

/-! Size facts for the fuel induction. -/

theorem jsize_pos (j : Json) : 1 ≤ jsize j := by
  cases j with
  | null => simp [jsize]
  | bool b => simp [jsize]
  | num n => simp [jsize]
  | str s => simp [jsize]
  | arr es => rw [jsize]; omega
  | obj ms => rw [jsize]; omega

/-! Head characters of rendered values. -/

theorem dumpVal_head (j : Json) :
    ∃ c t, dumpVal j = c :: t ∧ isWsC c = false ∧ c ≠ ']' ∧ c ≠ '}' := by
  cases j with
  | null => refine ⟨'n', _, rfl, by decide⟩
  | bool b =>
    cases b with
    | false => refine ⟨'f', _, rfl, by decide⟩
    | true => refine ⟨'t', _, rfl, by decide⟩
  | num n =>
    show ∃ c t, intRepr n = c :: t ∧ _
    by_cases h : n < 0
    · refine ⟨'-', natRepr n.natAbs, by rw [intRepr, if_pos h], by decide⟩
    · obtain ⟨c, t, hct, hdig⟩ := natRepr_head n.natAbs
      obtain ⟨hws, _, _, _, _, _, _, _⟩ := isDig_props hdig
      refine ⟨c, t, by rw [intRepr, if_neg h, hct], hws, ?_, ?_⟩ <;>
        exact fun e => absurd hdig (by subst e; decide)
  | str s => refine ⟨'"', _, rfl, by decide⟩
  | arr es =>
    cases es with
    | nil => refine ⟨'[', _, rfl, by decide⟩
    | cons e es => refine ⟨'[', _, rfl, by decide⟩
  | obj ms =>
    cases ms with
    | nil => refine ⟨'{', _, rfl, by decide⟩
    | cons kv ms => refine ⟨'{', _, rfl, by decide⟩

theorem skipWs_cons_no {c : Char} {cs : List Char} (h : isWsC c = false) :
    skipWs (c :: cs) = c :: cs := by
  rw [skipWs, h]
  simp

theorem skipWs_dumpVal (j : Json) (x : List Char) :
    skipWs (dumpVal j ++ x) = dumpVal j ++ x := by
  obtain ⟨c, t, hct, hws, _, _⟩ := dumpVal_head j
  rw [hct, List.cons_append, skipWs_cons_no hws]

theorem skipWs_space (cs : List Char) : skipWs (' ' :: cs) = skipWs cs := by
  rw [skipWs]
  simp [isWsC]

theorem dumpField_shape (k : String) (v : Json) (x : List Char) :
    dumpField (k, v) ++ x = '"' :: (escBody k ++ '"' :: (':' :: ' ' :: (dumpVal v ++ x))) := by
  show (dumpStr k ++ ':' :: ' ' :: dumpVal v) ++ x = _
  rw [dumpStr]
  simp

theorem skipWs_dumpField (kv : String × Json) (x : List Char) :
    skipWs (dumpField kv ++ x) = dumpField kv ++ x := by
  obtain ⟨k, v⟩ := kv
  rw [dumpField_shape]
  exact skipWs_cons_no (by decide)

/-! Reduction of one `parseVal` step on each rendered shape. -/

theorem parseVal_sees_null (fuel : Nat) (cs rest : List Char)
    (h : skipWs cs = 'n' :: 'u' :: 'l' :: 'l' :: rest) :
    parseVal (fuel + 1) cs = some (.null, rest) := by
  simp [parseVal, h]

theorem parseVal_sees_true (fuel : Nat) (cs rest : List Char)
    (h : skipWs cs = 't' :: 'r' :: 'u' :: 'e' :: rest) :
    parseVal (fuel + 1) cs = some (.bool true, rest) := by
  simp [parseVal, h]

theorem parseVal_sees_false (fuel : Nat) (cs rest : List Char)
    (h : skipWs cs = 'f' :: 'a' :: 'l' :: 's' :: 'e' :: rest) :
    parseVal (fuel + 1) cs = some (.bool false, rest) := by
  simp [parseVal, h]

theorem parseVal_sees_str (fuel : Nat) (cs rest : List Char) (s : String)
    (h : skipWs cs = '"' :: (escBody s ++ '"' :: rest)) :
    parseVal (fuel + 1) cs = some (.str s, rest) := by
  simp [parseVal, h, parseStr_dumpStr]

theorem parseVal_sees_num (fuel : Nat) (cs rest : List Char) (n : Int)
    (hskip : skipWs cs = intRepr n ++ rest) (hstop : stopTok rest = true) :
    parseVal (fuel + 1) cs = some (.num n, rest) := by
  have hnd := stopTok_noDigHead hstop
  by_cases h : n < 0
  · rw [intRepr, if_pos h, List.cons_append] at hskip
    have habs : ((n.natAbs : Nat) : Int) = -n := Int.ofNat_natAbs_of_nonpos (by omega)
    simp [parseVal, hskip, parseNatNum_natRepr _ _ hnd, habs]
  · obtain ⟨c, t, hct, hdig⟩ := natRepr_head n.natAbs
    obtain ⟨hws, hn, ht, hf, hq, hbk, hbc, hmn⟩ := isDig_props hdig
    rw [intRepr, if_neg h, hct, List.cons_append] at hskip
    have hback : c :: (t ++ rest) = natRepr n.natAbs ++ rest := by
      rw [hct, List.cons_append]
    simp only [parseVal, hskip]
    simp [hn, ht, hf, hq, hbk, hbc, hmn, hdig, hback, parseNatNum_natRepr _ _ hnd,
      Int.natAbs_of_nonneg (by omega : (0 : Int) ≤ n)]

theorem parseVal_sees_arr_nil (fuel : Nat) (cs rest : List Char)
    (h : skipWs cs = '[' :: ']' :: rest) :
    parseVal (fuel + 1) cs = some (.arr [], rest) := by
  simp [parseVal, h, skipWs_cons_no (show isWsC ']' = false by decide)]

theorem parseVal_sees_obj_nil (fuel : Nat) (cs rest : List Char)
    (h : skipWs cs = '{' :: '}' :: rest) :
    parseVal (fuel + 1) cs = some (.obj [], rest) := by
  simp [parseVal, h, skipWs_cons_no (show isWsC '}' = false by decide)]

theorem parseVal_sees_arr (fuel : Nat) (cs rest : List Char) (e : Json) (es : List Json)
    (h : skipWs cs = '[' :: (dumpVal e ++ (dumpMore es ++ ']' :: rest))) :
    parseVal (fuel + 1) cs
      = (parseItems fuel (dumpVal e ++ (dumpMore es ++ ']' :: rest))).map
          (fun p => (Json.arr p.1, p.2)) := by
  obtain ⟨c, t, hct, hws, hbr, hbc⟩ := dumpVal_head e
  simp only [parseVal, h]
  rw [show skipWs (dumpVal e ++ (dumpMore es ++ ']' :: rest))
      = dumpVal e ++ (dumpMore es ++ ']' :: rest) from skipWs_dumpVal e _]
  rw [hct, List.cons_append]
  simp [hbr, ← List.cons_append, ← hct]

theorem parseVal_sees_obj (fuel : Nat) (cs rest : List Char) (kv : String × Json)
    (ms : List (String × Json))
    (h : skipWs cs = '{' :: (dumpField kv ++ (dumpMoreKV ms ++ '}' :: rest))) :
    parseVal (fuel + 1) cs
      = (parseFields fuel (dumpField kv ++ (dumpMoreKV ms ++ '}' :: rest))).map
          (fun p => (Json.obj (dictMerge p.1), p.2)) := by
  obtain ⟨k, v⟩ := kv
  simp only [parseVal, h]
  rw [show skipWs (dumpField (k, v) ++ (dumpMoreKV ms ++ '}' :: rest))
      = dumpField (k, v) ++ (dumpMoreKV ms ++ '}' :: rest) from skipWs_dumpField _ _]
  rw [dumpField_shape]
  simp [← dumpField_shape]

theorem stopTok_dumpMore (es : List Json) (rest : List Char) :
    stopTok (dumpMore es ++ ']' :: rest) = true := by
  cases es with
  | nil => simp [dumpMore, stopTok]
  | cons e es => simp [dumpMore, stopTok]

theorem stopTok_dumpMoreKV (ms : List (String × Json)) (rest : List Char) :
    stopTok (dumpMoreKV ms ++ '}' :: rest) = true := by
  cases ms with
  | nil => simp [dumpMoreKV, stopTok]
  | cons kv ms => simp [dumpMoreKV, stopTok]

/-- The joint round trip, by induction on fuel: a rendered value (array
element run, member run) parses back to itself before any delimiter. -/
theorem parse_dump_fuel : ∀ fuel : Nat,
    (∀ (j : Json) (cs rest : List Char), jwfB j = true → jsize j < fuel →
      stopTok rest = true → skipWs cs = dumpVal j ++ rest →
      parseVal fuel cs = some (j, rest)) ∧
    (∀ (e : Json) (es : List Json) (cs rest : List Char),
      jwfB e = true → jwfL es = true → jsizeL (e :: es) < fuel → stopTok rest = true →
      skipWs cs = dumpVal e ++ (dumpMore es ++ ']' :: rest) →
      parseItems fuel cs = some (e :: es, rest)) ∧
    (∀ (k : String) (v : Json) (ms : List (String × Json)) (cs rest : List Char),
      jwfB v = true → jwfM ms = true → nodupKeys ms = true →
      jsizeM ((k, v) :: ms) < fuel → stopTok rest = true →
      skipWs cs = dumpField (k, v) ++ (dumpMoreKV ms ++ '}' :: rest) →
      parseFields fuel cs = some ((k, v) :: ms, rest)) := by
  intro fuel
  induction fuel with
  | zero =>
    refine ⟨fun j cs rest _ hsz _ _ => ?_, fun e es cs rest _ _ hsz _ _ => ?_,
      fun k v ms cs rest _ _ _ hsz _ _ => ?_⟩
    · have := jsize_pos j; omega
    · rw [jsizeL] at hsz; omega
    · rw [jsizeM] at hsz; omega
  | succ f ih =>
    obtain ⟨ihV, ihI, ihF⟩ := ih
    refine ⟨?_, ?_, ?_⟩
    · -- one value
      intro j cs rest hwf hsz hstop hskip
      cases j with
      | null =>
        simp only [dumpVal, List.cons_append, List.nil_append] at hskip
        exact parseVal_sees_null f cs rest hskip
      | bool b =>
        cases b with
        | true =>
          simp only [dumpVal, List.cons_append, List.nil_append] at hskip
          exact parseVal_sees_true f cs rest hskip
        | false =>
          simp only [dumpVal, List.cons_append, List.nil_append] at hskip
          exact parseVal_sees_false f cs rest hskip
      | num n =>
        simp only [dumpVal] at hskip
        exact parseVal_sees_num f cs rest n hskip hstop
      | str s =>
        simp only [dumpVal, dumpStr, List.cons_append, List.append_assoc,
          List.singleton_append] at hskip
        exact parseVal_sees_str f cs rest s hskip
      | arr es =>
        cases es with
        | nil =>
          simp only [dumpVal, List.cons_append, List.nil_append] at hskip
          exact parseVal_sees_arr_nil f cs rest hskip
        | cons e es =>
          simp only [dumpVal, List.cons_append, List.append_assoc,
            List.singleton_append] at hskip
          rw [parseVal_sees_arr f cs rest e es hskip]
          simp only [jwfB, jwfL, Bool.and_eq_true] at hwf
          simp only [jsize, jsizeL] at hsz
          rw [ihI e es _ rest hwf.1 hwf.2 (by rw [jsizeL]; omega) hstop
            (skipWs_dumpVal e _)]
          rfl
      | obj ms =>
        cases ms with
        | nil =>
          simp only [dumpVal, List.cons_append, List.nil_append] at hskip
          exact parseVal_sees_obj_nil f cs rest hskip
        | cons kv ms =>
          obtain ⟨k, v⟩ := kv
          simp only [dumpVal, List.cons_append, List.append_assoc,
            List.singleton_append] at hskip
          rw [parseVal_sees_obj f cs rest (k, v) ms hskip]
          simp only [jwfB, jwfM, nodupKeys, Bool.and_eq_true] at hwf
          simp only [jsize, jsizeM] at hsz
          have hnd : nodupKeys ((k, v) :: ms) = true := by
            rw [nodupKeys, Bool.and_eq_true]
            exact ⟨hwf.1.1, hwf.1.2⟩
          rw [ihF k v ms _ rest hwf.2.1 hwf.2.2 hwf.1.2 (by rw [jsizeM]; omega) hstop
            (skipWs_dumpField (k, v) _)]
          simp [dictMerge_of_nodup _ hnd]
    · -- array element run
      intro e es cs rest hwe hwes hsz hstop hskip
      rw [jsizeL] at hsz
      have hstop2 := stopTok_dumpMore es rest
      have hv := ihV e cs (dumpMore es ++ ']' :: rest) hwe
        (by have := jsize_pos e; omega) hstop2 hskip
      cases es with
      | nil =>
        simp only [dumpMore, List.nil_append] at hv
        simp [parseItems, hv, skipWs_cons_no (show isWsC ']' = false by decide)]
      | cons e2 es2 =>
        simp only [jwfL, Bool.and_eq_true] at hwes
        simp only [dumpMore, List.cons_append, List.append_assoc] at hv ⊢
        rw [jsizeL] at hsz
        have h2 := ihI e2 es2 (' ' :: (dumpVal e2 ++ (dumpMore es2 ++ ']' :: rest))) rest
          hwes.1 hwes.2 (by rw [jsizeL]; have := jsize_pos e; omega) hstop
          (by rw [skipWs_space, skipWs_dumpVal])
        simp [parseItems, hv, skipWs_cons_no (show isWsC ',' = false by decide), h2]
    · -- member run
      intro k v ms cs rest hwv hwms hnd hsz hstop hskip
      rw [jsizeM] at hsz
      rw [dumpField_shape] at hskip
      have hstop2 := stopTok_dumpMoreKV ms rest
      have hv := ihV v (' ' :: (dumpVal v ++ (dumpMoreKV ms ++ '}' :: rest)))
        (dumpMoreKV ms ++ '}' :: rest) hwv (by have := jsize_pos v; omega) hstop2
        (by rw [skipWs_space, skipWs_dumpVal])
      cases ms with
      | nil =>
        simp only [dumpMoreKV, List.nil_append] at hv
        simp [parseFields, hskip, dumpMoreKV, parseStr_dumpStr,
          skipWs_cons_no (show isWsC ':' = false by decide), hv,
          skipWs_cons_no (show isWsC '}' = false by decide)]
      | cons kv2 ms2 =>
        obtain ⟨k2, v2⟩ := kv2
        simp only [jwfM, Bool.and_eq_true] at hwms
        simp only [nodupKeys, Bool.and_eq_true] at hnd
        simp only [dumpMoreKV, List.cons_append, List.append_assoc] at hv ⊢
        rw [jsizeM] at hsz
        have h2 := ihF k2 v2 ms2
          (' ' :: (dumpField (k2, v2) ++ (dumpMoreKV ms2 ++ '}' :: rest))) rest
          hwms.1 hwms.2 hnd.2 (by rw [jsizeM]; have := jsize_pos v; omega) hstop
          (by rw [skipWs_space, skipWs_dumpField])
        simp [parseFields, hskip, dumpMoreKV, parseStr_dumpStr,
          skipWs_cons_no (show isWsC ':' = false by decide), hv,
          skipWs_cons_no (show isWsC ',' = false by decide), h2]

theorem intRepr_length_pos (n : Int) : 1 ≤ (intRepr n).length := by
  rw [intRepr]
  split
  · simp
  · have := natRepr_ne_nil n.natAbs
    cases h : natRepr n.natAbs with
    | nil => exact absurd h this
    | cons c t => simp [h]

/-- The rendering of a value is at least as long as its size, so input
length bounds the fuel any encoded value needs. -/
theorem jsize_le_dump : ∀ k : Nat,
    (∀ j : Json, jsize j ≤ k → jsize j ≤ (dumpVal j).length) ∧
    (∀ es : List Json, jsizeL es ≤ k → jsizeL es ≤ (dumpMore es).length) ∧
    (∀ ms : List (String × Json), jsizeM ms ≤ k → jsizeM ms ≤ (dumpMoreKV ms).length) := by
  intro k
  induction k with
  | zero =>
    refine ⟨fun j h => ?_, fun es h => ?_, fun ms h => ?_⟩
    · have := jsize_pos j; omega
    · cases es with
      | nil => simp [jsizeL]
      | cons e es => rw [jsizeL] at h; have := jsize_pos e; omega
    · cases ms with
      | nil => simp [jsizeM]
      | cons kv ms =>
        obtain ⟨a, v⟩ := kv
        rw [jsizeM] at h; have := jsize_pos v; omega
  | succ k ih =>
    obtain ⟨ihV, ihL, ihM⟩ := ih
    refine ⟨fun j h => ?_, fun es h => ?_, fun ms h => ?_⟩
    · cases j with
      | null => simp [jsize, dumpVal]
      | bool b => cases b <;> simp [jsize, dumpVal]
      | num n =>
        have := intRepr_length_pos n
        show jsize (.num n) ≤ (intRepr n).length
        rw [jsize]; omega
      | str s => simp [jsize, dumpVal, dumpStr]
      | arr es =>
        cases es with
        | nil => simp [jsize, jsizeL, dumpVal]
        | cons e es =>
          rw [jsize, jsizeL] at h ⊢
          have h1 : jsize e ≤ (dumpVal e).length := ihV e (by have := jsize_pos e; omega)
          have h2 : jsizeL es ≤ (dumpMore es).length := ihL es (by have := jsize_pos e; omega)
          simp only [dumpVal, List.length_cons, List.length_append, List.length_singleton]
          omega
      | obj ms =>
        cases ms with
        | nil => simp [jsize, jsizeM, dumpVal]
        | cons kv ms =>
          obtain ⟨a, v⟩ := kv
          rw [jsize, jsizeM] at h ⊢
          have h1 : jsize v ≤ (dumpVal v).length := ihV v (by have := jsize_pos v; omega)
          have h2 : jsizeM ms ≤ (dumpMoreKV ms).length := ihM ms (by have := jsize_pos v; omega)
          simp only [dumpVal, dumpField, dumpStr, List.length_cons, List.length_append,
            List.length_singleton]
          omega
    · cases es with
      | nil => simp [jsizeL]
      | cons e es =>
        rw [jsizeL] at h ⊢
        have h1 : jsize e ≤ (dumpVal e).length := ihV e (by have := jsize_pos e; omega)
        have h2 : jsizeL es ≤ (dumpMore es).length := ihL es (by have := jsize_pos e; omega)
        simp only [dumpMore, List.length_cons, List.length_append]
        omega
    · cases ms with
      | nil => simp [jsizeM]
      | cons kv ms =>
        obtain ⟨a, v⟩ := kv
        rw [jsizeM] at h ⊢
        have h1 : jsize v ≤ (dumpVal v).length := ihV v (by have := jsize_pos v; omega)
        have h2 : jsizeM ms ≤ (dumpMoreKV ms).length := ihM ms (by have := jsize_pos v; omega)
        simp only [dumpMoreKV, dumpField, dumpStr, List.length_cons, List.length_append,
          List.length_singleton]
        omega

theorem jsize_le_dump_len (j : Json) : jsize j ≤ (dumpVal j).length :=
  (jsize_le_dump (jsize j)).1 j (Nat.le_refl _)

/-- The document round trip of the serializer: parsing a dump of any
well-formed value gives the value back. -/
theorem jsonParse_jsonDumps (j : Json) (hwf : jwfB j = true) :
    jsonParse (jsonDumps j) = some j := by
  have hsz := jsize_le_dump_len j
  have hskip : skipWs (dumpVal j) = dumpVal j ++ ([] : List Char) := by
    rw [List.append_nil]
    have := skipWs_dumpVal j []
    rwa [List.append_nil] at this
  have hparse := (parse_dump_fuel ((dumpVal j).length + 1)).1 j (dumpVal j) [] hwf
    (by omega) rfl hskip
  rw [jsonParse]
  show (match parseVal ((dumpVal j).length + 1) (dumpVal j) with
    | some (v, r) => if skipWs r = [] then some v else none
    | none => none) = some j
  rw [hparse]
  simp [skipWs]

/-! ### The rendering is pure ASCII (so `.encode()` is byte-per-char) -/

theorem hexChar_ascii {d : Nat} (h : d < 16) : (hexChar d).toNat < 128 := by
  have hall : ∀ d, d < 16 → (hexChar d).toNat < 128 := by decide
  exact hall d h

theorem hexQuad_ascii (n : Nat) : ∀ x ∈ hexQuad n, x.toNat < 128 := by
  intro x hx
  rw [hexQuad] at hx
  simp only [List.mem_cons, List.not_mem_nil, or_false] at hx
  rcases hx with h | h | h | h <;>
    (subst h; exact hexChar_ascii (Nat.mod_lt _ (by omega)))

theorem escChar_ascii (c : Char) : ∀ x ∈ escChar c, x.toNat < 128 := by
  intro x hx
  rw [escChar] at hx
  by_cases h1 : c = '"'
  · rw [if_pos h1] at hx
    simp only [List.mem_cons, List.not_mem_nil, or_false] at hx
    rcases hx with h | h <;> (subst h; decide)
  rw [if_neg h1] at hx
  by_cases h2 : c = '\\'
  · rw [if_pos h2] at hx
    simp only [List.mem_cons, List.not_mem_nil, or_false] at hx
    rcases hx with h | h <;> (subst h; decide)
  rw [if_neg h2] at hx
  by_cases h3 : c.toNat = 8
  · rw [if_pos h3] at hx
    simp only [List.mem_cons, List.not_mem_nil, or_false] at hx
    rcases hx with h | h <;> (subst h; decide)
  rw [if_neg h3] at hx
  by_cases h4 : c.toNat = 12
  · rw [if_pos h4] at hx
    simp only [List.mem_cons, List.not_mem_nil, or_false] at hx
    rcases hx with h | h <;> (subst h; decide)
  rw [if_neg h4] at hx
  by_cases h5 : c.toNat = 10
  · rw [if_pos h5] at hx
    simp only [List.mem_cons, List.not_mem_nil, or_false] at hx
    rcases hx with h | h <;> (subst h; decide)
  rw [if_neg h5] at hx
  by_cases h6 : c.toNat = 13
  · rw [if_pos h6] at hx
    simp only [List.mem_cons, List.not_mem_nil, or_false] at hx
    rcases hx with h | h <;> (subst h; decide)
  rw [if_neg h6] at hx
  by_cases h7 : c.toNat = 9
  · rw [if_pos h7] at hx
    simp only [List.mem_cons, List.not_mem_nil, or_false] at hx
    rcases hx with h | h <;> (subst h; decide)
  rw [if_neg h7] at hx
  by_cases h8 : 32 ≤ c.toNat ∧ c.toNat ≤ 126
  · rw [if_pos h8] at hx
    have hx2 := List.mem_singleton.mp hx
    subst hx2
    omega
  rw [if_neg h8] at hx
  by_cases h9 : c.toNat < 65536
  · rw [if_pos h9] at hx
    simp only [List.mem_cons] at hx
    rcases hx with h | h | h
    · subst h; decide
    · subst h; decide
    · exact hexQuad_ascii _ _ h
  · rw [if_neg h9] at hx
    simp only [List.cons_append, List.append_assoc, List.mem_cons, List.mem_append] at hx
    rcases hx with h | h | h | h | h | h
    · subst h; decide
    · subst h; decide
    · exact hexQuad_ascii _ _ h
    · subst h; decide
    · subst h; decide
    · exact hexQuad_ascii _ _ h

theorem escBody_ascii (s : String) : ∀ c ∈ escBody s, c.toNat < 128 := by
  intro c hc
  simp only [escBody, List.mem_flatten, List.mem_map] at hc
  obtain ⟨l, ⟨c2, _, hc2⟩, hcl⟩ := hc
  subst hc2
  exact escChar_ascii c2 c hcl

theorem dumpStr_ascii (s : String) : ∀ c ∈ dumpStr s, c.toNat < 128 := by
  intro c hc
  simp only [dumpStr, List.cons_append, List.append_assoc, List.singleton_append,
    List.mem_cons, List.mem_append, List.not_mem_nil, or_false] at hc
  rcases hc with h | h | h
  · subst h; decide
  · exact escBody_ascii s c h
  · subst h; decide

theorem intRepr_ascii (n : Int) : ∀ c ∈ intRepr n, c.toNat < 128 := by
  intro c hc
  rw [intRepr] at hc
  split at hc
  · simp only [List.mem_cons] at hc
    rcases hc with h | h
    · subst h; decide
    · have := natRepr_digits n.natAbs c h; omega
  · have := natRepr_digits n.natAbs c hc; omega

/-- Every character `dumpVal` (and friends) emits is ASCII. -/
theorem dump_ascii : ∀ k : Nat,
    (∀ j : Json, jsize j ≤ k → ∀ c ∈ dumpVal j, c.toNat < 128) ∧
    (∀ es : List Json, jsizeL es ≤ k → ∀ c ∈ dumpMore es, c.toNat < 128) ∧
    (∀ ms : List (String × Json), jsizeM ms ≤ k → ∀ c ∈ dumpMoreKV ms, c.toNat < 128) := by
  intro k
  induction k with
  | zero =>
    refine ⟨fun j h => ?_, fun es h => ?_, fun ms h => ?_⟩
    · have := jsize_pos j; omega
    · cases es with
      | nil => intro c hc; simp [dumpMore] at hc
      | cons e es => rw [jsizeL] at h; have := jsize_pos e; omega
    · cases ms with
      | nil => intro c hc; simp [dumpMoreKV] at hc
      | cons kv ms =>
        obtain ⟨a, v⟩ := kv
        rw [jsizeM] at h; have := jsize_pos v; omega
  | succ k ih =>
    obtain ⟨ihV, ihL, ihM⟩ := ih
    refine ⟨fun j h => ?_, fun es h => ?_, fun ms h => ?_⟩
    · cases j with
      | null =>
        intro c hc
        simp only [dumpVal, List.mem_cons, List.not_mem_nil, or_false] at hc
        rcases hc with h | h | h | h <;> (subst h; decide)
      | bool b =>
        intro c hc
        cases b with
        | true =>
          rw [show dumpVal (.bool true) = ['t', 'r', 'u', 'e'] from rfl] at hc
          simp only [List.mem_cons, List.not_mem_nil, or_false] at hc
          rcases hc with h | h | h | h <;> (subst h; decide)
        | false =>
          rw [show dumpVal (.bool false) = ['f', 'a', 'l', 's', 'e'] from rfl] at hc
          simp only [List.mem_cons, List.not_mem_nil, or_false] at hc
          rcases hc with h | h | h | h | h <;> (subst h; decide)
      | num n => exact intRepr_ascii n
      | str s => exact dumpStr_ascii s
      | arr es =>
        cases es with
        | nil =>
          intro c hc
          simp only [dumpVal, List.mem_cons, List.not_mem_nil, or_false] at hc
          rcases hc with h | h <;> (subst h; decide)
        | cons e es =>
          rw [jsize, jsizeL] at h
          intro c hc
          simp only [dumpVal, List.cons_append, List.append_assoc, List.singleton_append,
            List.mem_cons, List.mem_append, List.not_mem_nil, or_false] at hc
          rcases hc with h2 | h2 | h2 | h2
          · subst h2; decide
          · exact ihV e (by have := jsize_pos e; omega) c h2
          · exact ihL es (by have := jsize_pos e; omega) c h2
          · subst h2; decide
      | obj ms =>
        cases ms with
        | nil =>
          intro c hc
          simp only [dumpVal, List.mem_cons, List.not_mem_nil, or_false] at hc
          rcases hc with h | h <;> (subst h; decide)
        | cons kv ms =>
          obtain ⟨a, v⟩ := kv
          rw [jsize, jsizeM] at h
          intro c hc
          simp only [dumpVal, dumpField, dumpStr, List.cons_append, List.append_assoc,
            List.singleton_append, List.mem_cons, List.mem_append, List.not_mem_nil,
            or_false, false_or] at hc
          rcases hc with h2 | h2 | h2 | h2 | h2 | h2 | h2 | h2 | h2
          · subst h2; decide
          · subst h2; decide
          · exact escBody_ascii a c h2
          · subst h2; decide
          · subst h2; decide
          · subst h2; decide
          · exact ihV v (by have := jsize_pos v; omega) c h2
          · exact ihM ms (by have := jsize_pos v; omega) c h2
          · subst h2; decide
    · cases es with
      | nil => intro c hc; simp [dumpMore] at hc
      | cons e es =>
        rw [jsizeL] at h
        intro c hc
        simp only [dumpMore, List.cons_append, List.append_assoc, List.mem_cons,
          List.mem_append] at hc
        rcases hc with h2 | h2 | h2 | h2
        · subst h2; decide
        · subst h2; decide
        · exact ihV e (by have := jsize_pos e; omega) c h2
        · exact ihL es (by have := jsize_pos e; omega) c h2
    · cases ms with
      | nil => intro c hc; simp [dumpMoreKV] at hc
      | cons kv ms =>
        obtain ⟨a, v⟩ := kv
        rw [jsizeM] at h
        intro c hc
        simp only [dumpMoreKV, dumpField, dumpStr, List.cons_append, List.append_assoc,
          List.singleton_append, List.mem_cons, List.mem_append, List.not_mem_nil,
          or_false, false_or] at hc
        rcases hc with h2 | h2 | h2 | h2 | h2 | h2 | h2 | h2 | h2
        · subst h2; decide
        · subst h2; decide
        · subst h2; decide
        · exact escBody_ascii a c h2
        · subst h2; decide
        · subst h2; decide
        · subst h2; decide
        · exact ihV v (by have := jsize_pos v; omega) c h2
        · exact ihM ms (by have := jsize_pos v; omega) c h2

theorem dumpVal_ascii (j : Json) : ∀ c ∈ dumpVal j, c.toNat < 128 :=
  (dump_ascii (jsize j)).1 j (Nat.le_refl _)

/-! ### UTF-8 facts -/

theorem utf8Char_ascii {c : Char} (h : c.toNat < 128) : utf8Char c = [c.toNat] := by
  rw [utf8Char]
  simp [h]

theorem utf8list_ascii (cs : List Char) (h : ∀ c ∈ cs, c.toNat < 128) :
    (cs.map utf8Char).flatten = cs.map Char.toNat := by
  induction cs with
  | nil => rfl
  | cons c t ih =>
    rw [List.map_cons, List.flatten_cons, utf8Char_ascii (h c (by simp)),
      List.map_cons, List.singleton_append, ih (fun x hx => h x (by simp [hx]))]

theorem utf8DecodeAux_ascii :
    ∀ (cs : List Char) (fuel : Nat), cs.length < fuel → (∀ c ∈ cs, c.toNat < 128) →
      utf8DecodeAux fuel (cs.map Char.toNat) = some cs := by
  intro cs
  induction cs with
  | nil => intro fuel _ _; cases fuel <;> rfl
  | cons c t ih =>
    intro fuel hlen h
    match fuel, hlen with
    | f + 1, hlen =>
      have hc128 : c.toNat < 128 := h c (by simp)
      have hrec := ih f (by simpa using Nat.lt_of_succ_lt_succ hlen)
        (fun x hx => h x (by simp [hx]))
      simp [utf8DecodeAux, hc128, hrec, Char.ofNat_toNat]

/-- UTF-8 round trip on ASCII strings (every serializer output is one). -/
theorem utf8_round_ascii (s : String) (h : ∀ c ∈ s.data, c.toNat < 128) :
    utf8Decode (utf8Encode s) = some s := by
  rw [utf8Decode, utf8Encode, utf8list_ascii s.data h,
    utf8DecodeAux_ascii s.data _ (by simp) h]
  rfl

theorem utf8Char_lt256 (c : Char) : ∀ x ∈ utf8Char c, x < 256 := by
  intro x hx
  have hb := char_toNat_bounds c
  rw [utf8Char] at hx
  by_cases h1 : c.toNat < 128
  · rw [if_pos h1] at hx
    have := List.mem_singleton.mp hx
    omega
  rw [if_neg h1] at hx
  by_cases h2 : c.toNat < 2048
  · rw [if_pos h2] at hx
    simp only [List.mem_cons, List.not_mem_nil, or_false] at hx
    have m1 := Nat.mod_lt c.toNat (show 0 < 64 by omega)
    rcases hx with h | h <;> omega
  rw [if_neg h2] at hx
  by_cases h3 : c.toNat < 65536
  · rw [if_pos h3] at hx
    simp only [List.mem_cons, List.not_mem_nil, or_false] at hx
    have m1 := Nat.mod_lt c.toNat (show 0 < 64 by omega)
    have m2 := Nat.mod_lt (c.toNat / 64) (show 0 < 64 by omega)
    rcases hx with h | h | h <;> omega
  · rw [if_neg h3] at hx
    simp only [List.mem_cons, List.not_mem_nil, or_false] at hx
    have m1 := Nat.mod_lt c.toNat (show 0 < 64 by omega)
    have m2 := Nat.mod_lt (c.toNat / 64) (show 0 < 64 by omega)
    have m3 := Nat.mod_lt (c.toNat / 4096) (show 0 < 64 by omega)
    rcases hx with h | h | h | h <;> omega

theorem utf8Encode_lt256 (s : String) : ∀ x ∈ utf8Encode s, x < 256 := by
  intro x hx
  rw [utf8Encode, List.mem_flatten] at hx
  obtain ⟨l, hl, hxl⟩ := hx
  rw [List.mem_map] at hl
  obtain ⟨c, _, hc⟩ := hl
  subst hc
  exact utf8Char_lt256 c x hxl

/-! ### Base64 round trip -/

theorem b64Val_b64Char {n : Nat} (h : n < 64) : b64Val (b64Char n) = some n := by
  have hall : ∀ n, n < 64 → b64Val (b64Char n) = some n := by decide
  exact hall n h

theorem b64Char_ne61 {n : Nat} (h : n < 64) : b64Char n ≠ 61 := by
  have hall : ∀ n, n < 64 → b64Char n ≠ 61 := by decide
  exact hall n h

theorem b64_roundtrip : ∀ bs : List Nat, (∀ x ∈ bs, x < 256) →
    b64decode (b64encode bs) = some bs
  | [] => fun _ => rfl
  | [a] => fun h => by
    have ha : a < 256 := h a (by simp)
    have h1 : a / 4 < 64 := by omega
    have h2 : a % 4 * 16 < 64 := by
      have := Nat.mod_lt a (show 0 < 4 by omega)
      omega
    show b64decode [b64Char (a / 4), b64Char (a % 4 * 16), 61, 61] = some [a]
    rw [b64decode, b64Val_b64Char h1, b64Val_b64Char h2]
    simp
    omega
  | [a, b] => fun h => by
    have ha : a < 256 := h a (by simp)
    have hb : b < 256 := h b (by simp)
    have h1 : a / 4 < 64 := by omega
    have h2 : a % 4 * 16 + b / 16 < 64 := by
      have := Nat.mod_lt a (show 0 < 4 by omega)
      omega
    have h3 : b % 16 * 4 < 64 := by
      have := Nat.mod_lt b (show 0 < 16 by omega)
      omega
    show b64decode [b64Char (a / 4), b64Char (a % 4 * 16 + b / 16),
      b64Char (b % 16 * 4), 61] = some [a, b]
    simp [b64decode, b64Val_b64Char h1, b64Val_b64Char h2, b64Val_b64Char h3,
      b64Char_ne61 h3]
    constructor <;> omega
  | a :: b :: c :: rest => fun h => by
    have ha : a < 256 := h a (by simp)
    have hb : b < 256 := h b (by simp)
    have hc : c < 256 := h c (by simp)
    have h1 : a / 4 < 64 := by omega
    have h2 : a % 4 * 16 + b / 16 < 64 := by
      have := Nat.mod_lt a (show 0 < 4 by omega)
      omega
    have h3 : b % 16 * 4 + c / 64 < 64 := by
      have := Nat.mod_lt b (show 0 < 16 by omega)
      omega
    have h4 : c % 64 < 64 := Nat.mod_lt c (by omega)
    have hrec := b64_roundtrip rest (fun x hx => h x (by simp [hx]))
    show b64decode (b64Char (a / 4) :: b64Char (a % 4 * 16 + b / 16) ::
      b64Char (b % 16 * 4 + c / 64) :: b64Char (c % 64) :: b64encode rest)
      = some (a :: b :: c :: rest)
    simp [b64decode, b64Val_b64Char h1, b64Val_b64Char h2, b64Val_b64Char h3,
      b64Val_b64Char h4, b64Char_ne61 h3, b64Char_ne61 h4, hrec]
    refine ⟨by omega, by omega, by omega⟩

/-- The archive round trip: decoding the encoder's output recovers the
document, for any compressor satisfying the zlib contract. -/
theorem decode_compress (zc zd : List Nat → List Nat) (hz : ValidZlib zc zd) (doc : Json)
    (hwf : jwfB doc = true) :
    decodeArchive zd (compress zc doc) = some doc := by
  have hascii : ∀ c ∈ (jsonDumps doc).data, c.toNat < 128 := dumpVal_ascii doc
  obtain ⟨hinv, _⟩ := hz (utf8Encode (jsonDumps doc)) (utf8Encode_lt256 _)
  rw [compress, decodeArchive, b64_roundtrip _ (hz (utf8Encode (jsonDumps doc))
    (utf8Encode_lt256 _)).2]
  simp [hinv, utf8_round_ascii _ hascii, jsonParse_jsonDumps doc hwf]

/-! ### Walk paths -/

/-- A well-formed filesystem entry name: nonempty and slash-free, as every
name in a real directory listing is. -/
def wfName (s : String) : Bool := !s.isEmpty && s.data.all (fun c => c ≠ '/')

/-- Pairwise-distinct component paths. -/
def nodupComps : List (List String) → Bool
  | [] => true
  | x :: xs => !xs.any (fun y => y == x) && nodupComps xs

/-- Pairwise-distinct names. -/
def nodupNames : List String → Bool
  | [] => true
  | x :: xs => !xs.any (fun y => y == x) && nodupNames xs

/-- A well-formed walk: well-formed names throughout, each directory
visited once, no duplicate file names within a directory — the shape
`os.walk` of a real tree always has. -/
def wfTree (tree : SourceTree) : Bool :=
  tree.all (fun d => d.1.all wfName && d.2.all wfName && nodupNames d.2) &&
    nodupComps (tree.map (fun d => d.1))

/-- Slash-prefixed continuation of a component join. -/
def slashJoinAll : List String → String
  | [] => ""
  | x :: xs => "/" ++ x ++ slashJoinAll xs

/-- Components joined with `/`, the form `root.removeprefix(path)` takes:
empty for the source root itself. -/
def slashJoin : List String → String
  | [] => ""
  | x :: xs => x ++ slashJoinAll xs

theorem wfName_last {s : String} (h : wfName s = true) :
    ∃ c, s.data.getLast? = some c ∧ c ≠ '/' := by
  rw [wfName, Bool.and_eq_true] at h
  obtain ⟨hne, hall⟩ := h
  have hd : s.data ≠ [] := by
    intro e
    have hs : s = "" := string_mk_inj (by rw [e])
    rw [hs] at hne
    exact absurd hne (by decide)
  obtain ⟨c, hc⟩ := List.getLast?_isSome.mpr hd |> Option.isSome_iff_exists.mp
  refine ⟨c, hc, ?_⟩
  have hmem : c ∈ s.data := List.mem_of_mem_getLast? (by simp [hc])
  rw [List.all_eq_true] at hall
  simpa using hall c hmem

theorem getLast?_append_str (a b : String) (h : b.data ≠ []) :
    (a ++ b).data.getLast? = b.data.getLast? := by
  rw [String.data_append]
  exact List.getLast?_append_of_ne_nil a.data h

theorem foldl_osJoin_cont (comps : List String) (a : String)
    (ha : ∃ c, a.data.getLast? = some c ∧ c ≠ '/')
    (hw : ∀ x ∈ comps, wfName x = true) :
    comps.foldl osJoin a = a ++ slashJoinAll comps := by
  induction comps generalizing a with
  | nil =>
    show a = a ++ ""
    apply string_mk_inj
    rw [String.data_append]
    simp [show ("" : String).data = [] from rfl]
  | cons c cs ih =>
    obtain ⟨ch, hch, hne⟩ := ha
    have hjoin : osJoin a c = a ++ "/" ++ c := by
      rw [osJoin, if_neg (by rw [hch]; simp [hne])]
    rw [List.foldl_cons, hjoin]
    obtain ⟨cl, hcl, hclne⟩ := wfName_last (hw c (by simp))
    rw [ih (a ++ "/" ++ c) ⟨cl, by
      rw [getLast?_append_str _ c (by intro e; rw [e] at hcl; simp at hcl)]
      exact hcl, hclne⟩ (fun x hx => hw x (by simp [hx]))]
    rw [slashJoinAll]
    apply string_mk_inj
    simp [String.data_append]

theorem foldl_osJoin_root (comps : List String) (root : String)
    (hroot : root.data.getLast? = some '/')
    (hw : ∀ x ∈ comps, wfName x = true) :
    comps.foldl osJoin root = root ++ slashJoin comps := by
  cases comps with
  | nil =>
    show root = root ++ ""
    apply string_mk_inj
    rw [String.data_append]
    simp [show ("" : String).data = [] from rfl]
  | cons c cs =>
    have hjoin : osJoin root c = root ++ c := by rw [osJoin, if_pos hroot]
    rw [List.foldl_cons, hjoin]
    obtain ⟨cl, hcl, hclne⟩ := wfName_last (hw c (by simp))
    rw [foldl_osJoin_cont cs (root ++ c) ⟨cl, by
      rw [getLast?_append_str _ c (by intro e; rw [e] at hcl; simp at hcl)]
      exact hcl, hclne⟩ (fun x hx => hw x (by simp [hx]))]
    rw [slashJoin]
    apply string_mk_inj
    simp [String.data_append]

theorem removePre_append (root x : String) : removePre (root ++ x) root = x := by
  rw [removePre]
  have hpre : root.data.isPrefixOf (root ++ x).data = true := by
    rw [String.data_append]
    exact List.isPrefixOf_iff_prefix.mpr (List.prefix_append _ _)
  rw [if_pos hpre]
  apply string_mk_inj
  show (root ++ x).data.drop root.data.length = x.data
  rw [String.data_append, List.drop_left]

theorem sourceRoot_last (name : String) : (sourceRoot name).data.getLast? = some '/' := by
  rw [sourceRoot]
  rw [getLast?_append_str _ "/" (by decide)]
  rfl

/-- The relative directory string the collector computes for a directory. -/
theorem removePre_walkRoot (name : String) (comps : List String)
    (hw : ∀ x ∈ comps, wfName x = true) :
    removePre (walkRoot name comps) (sourceRoot name) = slashJoin comps := by
  rw [walkRoot, foldl_osJoin_root comps _ (sourceRoot_last name) hw, removePre_append]

/-- The collector's output on a well-formed tree, in closed form. -/
theorem get_package_files_eq (name : String) (tree : SourceTree)
    (hw : wfTree tree = true) :
    get_package_files name (some tree)
      = (tree.map (fun d => d.2.map (fun f => slashJoin d.1 ++ "/" ++ f))).flatten := by
  rw [get_package_files]
  congr 1
  apply List.map_congr_left
  intro d hd
  rw [wfTree, Bool.and_eq_true, List.all_eq_true] at hw
  have hd2 := hw.1 d hd
  rw [Bool.and_eq_true, Bool.and_eq_true, List.all_eq_true] at hd2
  rw [removePre_walkRoot name d.1 hd2.1.1]

theorem wfName_props {s : String} (h : wfName s = true) :
    s.data ≠ [] ∧ ∀ c ∈ s.data, c ≠ '/' := by
  rw [wfName, Bool.and_eq_true] at h
  obtain ⟨hne, hall⟩ := h
  constructor
  · intro e
    have hs : s = "" := string_mk_inj (by rw [e])
    rw [hs] at hne
    exact absurd hne (by decide)
  · intro c hc
    rw [List.all_eq_true] at hall
    simpa using hall c hc

theorem takeWhile_all_true {α} (p : α → Bool) (l : List α) (h : ∀ x ∈ l, p x = true) :
    l.takeWhile p = l ∧ l.dropWhile p = [] := by
  induction l with
  | nil => simp
  | cons x xs ih =>
    have hx := h x (by simp)
    have := ih (fun y hy => h y (by simp [hy]))
    simp [List.takeWhile, List.dropWhile, hx, this]

theorem slashJoinAll_data_cons (x : String) (xs : List String) :
    (slashJoinAll (x :: xs)).data = '/' :: (slashJoin (x :: xs)).data := by
  rw [slashJoinAll, slashJoin]
  simp [String.data_append]

theorem slashJoin_data_cons (x : String) (xs : List String) :
    (slashJoin (x :: xs)).data = x.data ++ (slashJoinAll xs).data := by
  rw [slashJoin, String.data_append]

/-- The head segment of a slash join is recoverable: splitting at the first
slash is unambiguous. -/
theorem slashJoin_split (x : String) (xs : List String) (hx : wfName x = true) :
    ((slashJoin (x :: xs)).data.takeWhile (fun z => decide (z ≠ '/')) = x.data) ∧
    ((slashJoin (x :: xs)).data.dropWhile (fun z => decide (z ≠ '/'))
      = (slashJoinAll xs).data) := by
  obtain ⟨hne, hall⟩ := wfName_props hx
  rw [slashJoin_data_cons]
  have hp : ∀ c ∈ x.data, (fun z => decide (z ≠ '/')) c = true := by
    intro c hc; simpa using hall c hc
  cases xs with
  | nil =>
    show (x.data ++ ([] : List Char)).takeWhile _ = _ ∧ (x.data ++ ([] : List Char)).dropWhile _ = _
    rw [List.append_nil]
    exact takeWhile_all_true _ x.data hp
  | cons y ys =>
    rw [slashJoinAll_data_cons]
    constructor
    · exact takeWhile_append_stop _ x.data '/' _ hp (by simp)
    · exact dropWhile_append_stop _ x.data '/' _ hp (by simp)

theorem slashJoin_inj : ∀ (c1 c2 : List String), (∀ x ∈ c1, wfName x = true) →
    (∀ x ∈ c2, wfName x = true) → slashJoin c1 = slashJoin c2 → c1 = c2 := by
  intro c1
  induction c1 with
  | nil =>
    intro c2 _ hw2 h
    cases c2 with
    | nil => rfl
    | cons y ys =>
      have hdata := congrArg String.data h
      rw [slashJoin_data_cons] at hdata
      obtain ⟨hne, _⟩ := wfName_props (hw2 y (by simp))
      exact absurd hdata.symm (by simp [show (slashJoin []).data = [] from rfl, hne])
  | cons x xs ih =>
    intro c2 hw1 hw2 h
    cases c2 with
    | nil =>
      have hdata := congrArg String.data h
      rw [slashJoin_data_cons] at hdata
      obtain ⟨hne, _⟩ := wfName_props (hw1 x (by simp))
      exact absurd hdata (by simp [show (slashJoin []).data = [] from rfl, hne])
    | cons y ys =>
      have hx := hw1 x (by simp)
      have hy := hw2 y (by simp)
      obtain ⟨ht1, hd1⟩ := slashJoin_split x xs hx
      obtain ⟨ht2, hd2⟩ := slashJoin_split y ys hy
      have hdata := congrArg String.data h
      have hxy : x = y := string_mk_inj (by rw [← ht1, ← ht2, hdata])
      have htails : (slashJoinAll xs).data = (slashJoinAll ys).data := by
        rw [← hd1, ← hd2, hdata]
      subst hxy
      cases xs with
      | nil =>
        cases ys with
        | nil => rfl
        | cons z zs =>
          rw [slashJoinAll_data_cons] at htails
          exact absurd htails (by simp [show (slashJoinAll []).data = [] from rfl])
      | cons w ws =>
        cases ys with
        | nil =>
          rw [slashJoinAll_data_cons] at htails
          exact absurd htails.symm (by simp [show (slashJoinAll []).data = [] from rfl])
        | cons z zs =>
          rw [slashJoinAll_data_cons, slashJoinAll_data_cons] at htails
          have : slashJoin (w :: ws) = slashJoin (z :: zs) :=
            string_mk_inj (by injection htails)
          have hsub := ih (z :: zs) (fun q hq => hw1 q (by simp [hq]))
            (fun q hq => hw2 q (by simp [hq])) this
          rw [hsub]

/-- The relative path of a file under a directory, as the collector forms it. -/
theorem relPath_data (comps : List String) (f : String) :
    (slashJoin comps ++ "/" ++ f).data = (slashJoin comps).data ++ '/' :: f.data := by
  rw [String.data_append, String.data_append]
  simp

/-- Injectivity of collected relative paths over a well-formed tree. -/
theorem relPath_inj (comps1 comps2 : List String) (f1 f2 : String)
    (hw1 : ∀ x ∈ comps1, wfName x = true) (hw2 : ∀ x ∈ comps2, wfName x = true)
    (hf1 : wfName f1 = true) (hf2 : wfName f2 = true)
    (h : slashJoin comps1 ++ "/" ++ f1 = slashJoin comps2 ++ "/" ++ f2) :
    comps1 = comps2 ∧ f1 = f2 := by
  have hdata := congrArg String.data h
  rw [relPath_data, relPath_data] at hdata
  obtain ⟨ha, hb⟩ := last_sep_split '/' (slashJoin comps1).data (slashJoin comps2).data
    f1.data f2.data (wfName_props hf1).2 (wfName_props hf2).2 hdata
  exact ⟨slashJoin_inj comps1 comps2 hw1 hw2 (string_mk_inj ha), string_mk_inj hb⟩

theorem nodupNames_nodup {l : List String} (h : nodupNames l = true) : l.Nodup := by
  induction l with
  | nil => exact List.nodup_nil
  | cons x xs ih =>
    rw [nodupNames, Bool.and_eq_true] at h
    refine List.Nodup.cons ?_ (ih h.2)
    intro hmem
    have h2 := h.1
    rw [Bool.not_eq_eq_eq_not, Bool.not_true, List.any_eq_false] at h2
    exact (h2 x hmem) (by simp)

theorem nodupComps_pairwise {l : List (List String)} (h : nodupComps l = true) :
    l.Pairwise (fun a b => a ≠ b) := by
  induction l with
  | nil => exact List.Pairwise.nil
  | cons x xs ih =>
    rw [nodupComps, Bool.and_eq_true] at h
    refine List.Pairwise.cons ?_ (ih h.2)
    intro b hb
    have h2 := h.1
    rw [Bool.not_eq_eq_eq_not, Bool.not_true, List.any_eq_false] at h2
    have h3 := h2 b hb
    intro e
    exact h3 (by simp [e])

/-- Collected relative paths are pairwise distinct on a well-formed tree:
exactly one path per regular file. -/
theorem get_package_files_nodup (name : String) (tree : SourceTree)
    (hw : wfTree tree = true) :
    (get_package_files name (some tree)).Nodup := by
  rw [get_package_files_eq name tree hw]
  rw [wfTree, Bool.and_eq_true, List.all_eq_true] at hw
  rw [List.nodup_flatten]
  constructor
  · intro l hl
    rw [List.mem_map] at hl
    obtain ⟨d, hd, hdl⟩ := hl
    subst hdl
    have hdw := hw.1 d hd
    rw [Bool.and_eq_true, Bool.and_eq_true, List.all_eq_true, List.all_eq_true] at hdw
    refine List.Nodup.map_on ?_ (nodupNames_nodup hdw.2)
    intro f1 h1 f2 h2 heq
    exact (relPath_inj d.1 d.1 f1 f2 hdw.1.1 hdw.1.1 (by simpa using hdw.1.2 f1 h1)
      (by simpa using hdw.1.2 f2 h2) heq).2
  · have hpw : tree.Pairwise (fun a b => a.1 ≠ b.1) := by
      have := nodupComps_pairwise hw.2
      rw [List.pairwise_map] at this
      exact this
    rw [List.pairwise_map]
    refine hpw.imp_of_mem ?_
    intro d1 d2 hd1 hd2 hne
    intro q hq1 hq2
    rw [List.mem_map] at hq1 hq2
    obtain ⟨f1, hf1, he1⟩ := hq1
    obtain ⟨f2, hf2, he2⟩ := hq2
    have hd1w := hw.1 d1 hd1
    have hd2w := hw.1 d2 hd2
    rw [Bool.and_eq_true, Bool.and_eq_true, List.all_eq_true, List.all_eq_true] at hd1w hd2w
    have := relPath_inj d1.1 d2.1 f1 f2 hd1w.1.1 hd2w.1.1
      (by simpa using hd1w.1.2 f1 hf1) (by simpa using hd2w.1.2 f2 hf2)
      (by rw [he1, he2])
    exact hne this.1

/-! ### The assembler's effect on the manifest dictionary -/

theorem dictGet_filesAssign_files (kvs : List (String × Json)) (q : String) (e : Json) :
    dictGet (filesAssign kvs q e) "files"
      = (dictGet kvs "files").map (fun v =>
          match v with
          | .obj fs => Json.obj (dictSet fs q e)
          | other => other) := by
  induction kvs with
  | nil => rfl
  | cons kv rest ih =>
    rw [filesAssign, List.map_cons]
    by_cases h : kv.1 = "files"
    · simp [dictGet, h]
    · rw [if_neg h, dictGet, if_neg h, dictGet, if_neg h]
      exact ih

theorem dictGet_filesAssign_ne (kvs : List (String × Json)) (q : String) (e : Json)
    (k : String) (hk : k ≠ "files") :
    dictGet (filesAssign kvs q e) k = dictGet kvs k := by
  induction kvs with
  | nil => rfl
  | cons kv rest ih =>
    rw [filesAssign, List.map_cons]
    by_cases h : kv.1 = "files"
    · have h2 : ¬(kv.1 = k) := by rw [h]; exact Ne.symm hk
      rw [if_pos h, dictGet, dictGet]
      dsimp only
      rw [if_neg h2, if_neg h2]
      exact ih
    · rw [if_neg h, dictGet, dictGet]
      by_cases h3 : kv.1 = k
      · rw [if_pos h3, if_pos h3]
      · rw [if_neg h3, if_neg h3]
        exact ih

theorem filesFold_spec (f : String → Json) :
    ∀ (paths : List String) (kvs fs : List (String × Json)),
      dictGet kvs "files" = some (.obj fs) →
      dictGet (paths.foldl (fun acc q => filesAssign acc q (f q)) kvs) "files"
        = some (.obj (paths.foldl (fun fs2 q => dictSet fs2 q (f q)) fs)) ∧
      ∀ k, k ≠ "files" →
        dictGet (paths.foldl (fun acc q => filesAssign acc q (f q)) kvs) k
          = dictGet kvs k := by
  intro paths
  induction paths with
  | nil => exact fun kvs fs h => ⟨by simpa using h, fun k _ => rfl⟩
  | cons q ps ih =>
    intro kvs fs h
    rw [List.foldl_cons, List.foldl_cons]
    have h1 : dictGet (filesAssign kvs q (f q)) "files"
        = some (.obj (dictSet fs q (f q))) := by
      rw [dictGet_filesAssign_files, h]
      rfl
    obtain ⟨ha, hb⟩ := ih (filesAssign kvs q (f q)) (dictSet fs q (f q)) h1
    exact ⟨ha, fun k hk => (hb k hk).trans (dictGet_filesAssign_ne kvs q (f q) k hk)⟩

theorem nodupKeys_map (f : String → Json) (paths : List String) (h : paths.Nodup) :
    nodupKeys (paths.map (fun q => (q, f q))) = true := by
  induction paths with
  | nil => rfl
  | cons q ps ih =>
    rw [List.nodup_cons] at h
    rw [List.map_cons, nodupKeys, Bool.and_eq_true]
    refine ⟨?_, ih h.2⟩
    rw [Bool.not_eq_eq_eq_not, Bool.not_true, List.any_eq_false]
    intro kv hkv
    rw [List.mem_map] at hkv
    obtain ⟨q2, hq2, he⟩ := hkv
    subst he
    simp
    exact fun e => h.1 (e ▸ hq2)

/-- Inserting entries for pairwise-distinct keys into an empty dict gives
exactly one entry per key, in insertion order. -/
theorem dictFold_map (f : String → Json) (paths : List String) (h : paths.Nodup) :
    paths.foldl (fun fs q => dictSet fs q (f q)) [] = paths.map (fun q => (q, f q)) := by
  have h1 : paths.foldl (fun fs q => dictSet fs q (f q)) []
      = (paths.map (fun q => (q, f q))).foldl (fun d kv => dictSet d kv.1 kv.2) [] := by
    rw [List.foldl_map]
  rw [h1]
  exact dictMerge_of_nodup _ (nodupKeys_map f paths h)

/-! ### `build_package`, `write_package` and the driver, characterized -/

theorem build_package_eq (sha : List Nat → String) (p : Package)
    (kvs : List (String × Json)) (hm : p.manifest = some (some (.obj kvs))) :
    build_package sha p = .ok (some (.obj ((get_package_files p.name p.source).foldl
      (fun acc path => filesAssign acc path (fileEntry sha (p.contents path)))
      (dictSet kvs "files" (.obj []))))) := by
  simp [build_package, get_manifest, hm]

/-- The built document: the fresh file mapping under `"files"`, every other
manifest key untouched. -/
theorem build_package_fields (sha : List Nat → String) (p : Package)
    (kvs : List (String × Json)) (hm : p.manifest = some (some (.obj kvs))) :
    ∃ kvs1, build_package sha p = .ok (some (.obj kvs1)) ∧
      dictGet kvs1 "files" = some (.obj ((get_package_files p.name p.source).foldl
        (fun fs q => dictSet fs q (fileEntry sha (p.contents q))) [])) ∧
      ∀ k, k ≠ "files" → dictGet kvs1 k = dictGet kvs k := by
  refine ⟨_, build_package_eq sha p kvs hm, ?_, ?_⟩
  · exact (filesFold_spec (fun q => fileEntry sha (p.contents q))
      (get_package_files p.name p.source) _ [] (dictGet_dictSet_self kvs _ _)).1
  · intro k hk
    rw [(filesFold_spec (fun q => fileEntry sha (p.contents q))
      (get_package_files p.name p.source) _ [] (dictGet_dictSet_self kvs _ _)).2 k hk]
    exact dictGet_dictSet_ne kvs _ k _ hk

theorem write_package_some (sha : List Nat → String) (zc : List Nat → List Nat)
    (p : Package) (doc : Json) (hb : build_package sha p = .ok (some doc)) (v : Json)
    (hv : jGet doc "version" = some v) :
    write_package sha zc p = .ok (some ((ccpName p.name v, compress zc doc),
      ⟨v, sha (compress zc doc)⟩)) := by
  simp [write_package, hb, hv]

theorem write_package_keyErr (sha : List Nat → String) (zc : List Nat → List Nat)
    (p : Package) (doc : Json) (hb : build_package sha p = .ok (some doc))
    (hv : jGet doc "version" = none) :
    write_package sha zc p = .error .keyErr := by
  simp [write_package, hb, hv]

theorem write_package_skip (sha : List Nat → String) (zc : List Nat → List Nat)
    (p : Package) (hm : p.manifest = none) :
    write_package sha zc p = .ok none := by
  simp [write_package, build_package, get_manifest, hm]

theorem mainRun_skip (sha : List Nat → String) (zc : List Nat → List Nat) (p : Package)
    (hp : write_package sha zc p = .ok none) :
    ∀ ps1 ps2, mainRun sha zc (ps1 ++ p :: ps2) = mainRun sha zc (ps1 ++ ps2) := by
  intro ps1
  induction ps1 with
  | nil =>
    intro ps2
    rw [List.nil_append, List.nil_append, mainRun, hp]
  | cons q qs ih =>
    intro ps2
    rw [List.cons_append, List.cons_append, mainRun, mainRun, ih ps2]

theorem foldl_congr_on {α β : Type} (l : List β) (f g : α → β → α) (a : α)
    (h : ∀ acc, ∀ x ∈ l, f acc x = g acc x) : l.foldl f a = l.foldl g a := by
  induction l generalizing a with
  | nil => rfl
  | cons x t ih =>
    rw [List.foldl_cons, List.foldl_cons, h a x (by simp)]
    exact ih _ (fun acc y hy => h acc y (by simp [hy]))

/-- The assembler output depends only on the loaded manifest, the collected
paths, and the contents of the collected files. -/
theorem build_package_congr (sha : List Nat → String) (p q : Package)
    (hm : p.manifest = q.manifest)
    (hf : get_package_files p.name p.source = get_package_files q.name q.source)
    (hc : ∀ path ∈ get_package_files p.name p.source, p.contents path = q.contents path) :
    build_package sha p = build_package sha q := by
  cases hq : q.manifest with
  | none => simp [build_package, get_manifest, hm, hq]
  | some m =>
    cases m with
    | none => simp [build_package, get_manifest, hm, hq]
    | some j =>
      cases j with
      | obj kvs =>
        rw [build_package_eq sha p kvs (by rw [hm, hq]), build_package_eq sha q kvs hq]
        rw [hf]
        rw [foldl_congr_on _ _
          (fun acc path => filesAssign acc path (fileEntry sha (q.contents path))) _
          (fun acc path hpath => by
            rw [hc path (by rw [hf]; exact hpath)])]
      | null => simp [build_package, get_manifest, hm, hq]
      | bool b => simp [build_package, get_manifest, hm, hq]
      | num n => simp [build_package, get_manifest, hm, hq]
      | str s => simp [build_package, get_manifest, hm, hq]
      | arr es => simp [build_package, get_manifest, hm, hq]

/-! ### Well-formedness of the built document -/

theorem any_map_fst {α β : Type} (l : List (α × β)) (p : α → Bool) :
    (l.map Prod.fst).any p = l.any (fun kv => p kv.1) := by
  induction l with
  | nil => rfl
  | cons kv rest ih => simp [List.any_cons, ih]

theorem nodupKeys_eq_names (d : List (String × Json)) :
    nodupKeys d = nodupNames (d.map Prod.fst) := by
  induction d with
  | nil => rfl
  | cons kv rest ih =>
    rw [nodupKeys, List.map_cons, nodupNames, ih, any_map_fst]

theorem filesAssign_keys (kvs : List (String × Json)) (q : String) (e : Json) :
    (filesAssign kvs q e).map Prod.fst = kvs.map Prod.fst := by
  rw [filesAssign, List.map_map]
  apply List.map_congr_left
  intro kv _
  by_cases h : kv.1 = "files"
  · simp [h]
  · simp [h]

theorem filesFold_keys (paths : List String) (f : String → Json)
    (kvs : List (String × Json)) :
    ((paths.foldl (fun acc q => filesAssign acc q (f q)) kvs).map Prod.fst)
      = kvs.map Prod.fst := by
  induction paths generalizing kvs with
  | nil => rfl
  | cons q ps ih => rw [List.foldl_cons, ih, filesAssign_keys]

theorem dictSet_keys (d : List (String × Json)) (k : String) (v : Json) :
    (dictSet d k v).map Prod.fst
      = if dictHas d k then d.map Prod.fst else d.map Prod.fst ++ [k] := by
  rw [dictSet]
  by_cases h : dictHas d k
  · rw [if_pos h, if_pos h, List.map_map]
    apply List.map_congr_left
    intro kv _
    by_cases h2 : kv.1 = k
    · simp [h2]
    · simp [h2]
  · rw [if_neg h, if_neg h]
    simp

theorem nodupNames_append_fresh (l : List String) (x : String)
    (h : nodupNames l = true) (hx : ∀ y ∈ l, y ≠ x) :
    nodupNames (l ++ [x]) = true := by
  induction l with
  | nil => rfl
  | cons y ys ih =>
    rw [nodupNames, Bool.and_eq_true] at h
    rw [List.cons_append, nodupNames, Bool.and_eq_true]
    refine ⟨?_, ih h.2 (fun z hz => hx z (by simp [hz]))⟩
    rw [Bool.not_eq_eq_eq_not, Bool.not_true, List.any_eq_false]
    intro z hz
    rw [List.mem_append] at hz
    rcases hz with hz | hz
    · have h2 := h.1
      rw [Bool.not_eq_eq_eq_not, Bool.not_true, List.any_eq_false] at h2
      exact h2 z hz
    · rw [List.mem_singleton] at hz
      subst hz
      simp
      exact fun e => hx y (by simp) e.symm

theorem dictGet_of_mem_nodup (d : List (String × Json)) (k : String) (v : Json)
    (hn : nodupKeys d = true) (hm : (k, v) ∈ d) : dictGet d k = some v := by
  induction d with
  | nil => simp at hm
  | cons kv rest ih =>
    rw [nodupKeys, Bool.and_eq_true] at hn
    rw [List.mem_cons] at hm
    rcases hm with hm | hm
    · rw [← hm, dictGet]
      simp
    · rw [dictGet]
      by_cases h : kv.1 = k
      · exfalso
        have h2 := hn.1
        rw [Bool.not_eq_eq_eq_not, Bool.not_true, List.any_eq_false] at h2
        have := h2 (k, v) hm
        simp [h] at this
      · rw [if_neg h]
        exact ih hn.2 hm

theorem jwfB_of_dictGet (d : List (String × Json)) (k : String) (v : Json)
    (hw : jwfM d = true) (hg : dictGet d k = some v) : jwfB v = true := by
  induction d with
  | nil => simp [dictGet] at hg
  | cons kv rest ih =>
    obtain ⟨a, b⟩ := kv
    rw [jwfM, Bool.and_eq_true] at hw
    rw [dictGet] at hg
    by_cases h : (a, b).1 = k
    · rw [if_pos h] at hg
      cases hg
      exact hw.1
    · rw [if_neg h] at hg
      exact ih hw.2 hg

theorem jwfM_of_forall (d : List (String × Json))
    (h : ∀ kv ∈ d, jwfB kv.2 = true) : jwfM d = true := by
  induction d with
  | nil => rfl
  | cons kv rest ih =>
    obtain ⟨a, b⟩ := kv
    rw [jwfM, Bool.and_eq_true]
    exact ⟨h (a, b) (by simp), ih (fun kv2 h2 => h (kv2) (by simp [h2]))⟩

theorem jwfB_fileEntry (sha : List Nat → String) (content : String) :
    jwfB (fileEntry sha content) = true := rfl

theorem jwfM_map_fileEntry (sha : List Nat → String) (g : String → String)
    (paths : List String) :
    jwfM (paths.map (fun q => (q, fileEntry sha (g q)))) = true := by
  apply jwfM_of_forall
  intro kv hkv
  rw [List.mem_map] at hkv
  obtain ⟨q, _, he⟩ := hkv
  subst he
  exact jwfB_fileEntry sha (g q)

/-- The built document of a well-formed manifest over distinct collected
paths is itself well-formed (so it survives the serializer round trip). -/
theorem build_doc_wf (sha : List Nat → String) (p : Package)
    (kvs kvs1 : List (String × Json)) (hwf : jwfB (.obj kvs) = true)
    (hnodup : (get_package_files p.name p.source).Nodup)
    (hb : build_package sha p = .ok (some (.obj kvs1)))
    (hm : p.manifest = some (some (.obj kvs))) :
    jwfB (.obj kvs1) = true := by
  have heq := build_package_eq sha p kvs hm
  rw [hb] at heq
  have hkvs1 : kvs1 = (get_package_files p.name p.source).foldl
      (fun acc path => filesAssign acc path (fileEntry sha (p.contents path)))
      (dictSet kvs "files" (.obj [])) := by
    injection heq with h1
    injection h1 with h2
    injection h2
  rw [jwfB, Bool.and_eq_true] at hwf ⊢
  have hkeys1 : kvs1.map Prod.fst = (dictSet kvs "files" (.obj [])).map Prod.fst := by
    rw [hkvs1, filesFold_keys]
  constructor
  · -- keys stay pairwise distinct
    rw [nodupKeys_eq_names, hkeys1, dictSet_keys]
    by_cases h : dictHas kvs "files"
    · rw [if_pos h, ← nodupKeys_eq_names]
      exact hwf.1
    · rw [if_neg h]
      apply nodupNames_append_fresh _ _ (by rw [← nodupKeys_eq_names]; exact hwf.1)
      intro y hy
      rw [List.mem_map] at hy
      obtain ⟨kv, hkv, he⟩ := hy
      subst he
      exact (dictHas_eq_false_iff kvs "files").mp (Bool.of_not_eq_true h) kv hkv
  · -- every value is well-formed
    have hnod1 : nodupKeys kvs1 = true := by
      rw [nodupKeys_eq_names, hkeys1, dictSet_keys]
      by_cases h : dictHas kvs "files"
      · rw [if_pos h, ← nodupKeys_eq_names]
        exact hwf.1
      · rw [if_neg h]
        apply nodupNames_append_fresh _ _ (by rw [← nodupKeys_eq_names]; exact hwf.1)
        intro y hy
        rw [List.mem_map] at hy
        obtain ⟨kv, hkv, he⟩ := hy
        subst he
        exact (dictHas_eq_false_iff kvs "files").mp (Bool.of_not_eq_true h) kv hkv
    apply jwfM_of_forall
    intro kv hkv
    obtain ⟨k, v⟩ := kv
    have hget : dictGet kvs1 k = some v := dictGet_of_mem_nodup kvs1 k v hnod1 hkv
    by_cases h : k = "files"
    · subst h
      have hfiles : dictGet kvs1 "files" = some (.obj
          ((get_package_files p.name p.source).foldl
            (fun fs q => dictSet fs q (fileEntry sha (p.contents q))) [])) := by
        rw [hkvs1]
        exact (filesFold_spec (fun q => fileEntry sha (p.contents q)) _ _ []
          (dictGet_dictSet_self kvs _ _)).1
      rw [hget] at hfiles
      injection hfiles with hfe
      dsimp only
      rw [hfe, dictFold_map _ _ hnodup]
      rw [jwfB, Bool.and_eq_true]
      exact ⟨nodupKeys_map _ _ hnodup, jwfM_map_fileEntry sha p.contents _⟩
    · have hpres : dictGet kvs1 k = dictGet kvs k := by
        rw [hkvs1]
        rw [(filesFold_spec (fun q => fileEntry sha (p.contents q)) _ _ []
          (dictGet_dictSet_self kvs _ _)).2 k h]
        exact dictGet_dictSet_ne kvs _ k _ h
      rw [hget] at hpres
      exact jwfB_of_dictGet kvs k v hwf.2 hpres.symm

/-! ### The claims -/

/-- C1: for every package whose manifest is present and parses to a
well-formed JSON object and whose source tree is well-formed, the produced
archive, when decoded (base64-decode, then zlib-decompress, then UTF-8 and
JSON parse), yields exactly the built document; that document's `files`
mapping has exactly one entry per regular file under the source tree — the
collected relative paths are pairwise distinct and number one per file —
and each entry holds the file's exact text as `content` and the SHA-256 hex
digest of that text's bytes as `digest`. -/
theorem c1_archive_reproduces_files (sha : List Nat → String) (zc zd : List Nat → List Nat)
    (hz : ValidZlib zc zd) (p : Package) (tree : SourceTree)
    (kvs : List (String × Json))
    (hm : p.manifest = some (some (.obj kvs))) (hwf : jwfB (.obj kvs) = true)
    (hs : p.source = some tree) (ht : wfTree tree = true) :
    ∃ doc : Json, build_package sha p = .ok (some doc) ∧
      decodeArchive zd (compress zc doc) = some doc ∧
      jGet doc "files" = some (.obj ((get_package_files p.name p.source).map
        (fun q => (q, fileEntry sha (p.contents q))))) ∧
      (get_package_files p.name p.source).Nodup ∧
      (get_package_files p.name p.source).length
        = (tree.map (fun d => d.2.length)).sum := by
  have hnodup : (get_package_files p.name p.source).Nodup := by
    rw [hs]
    exact get_package_files_nodup p.name tree ht
  obtain ⟨kvs1, hb, hfiles, hothers⟩ := build_package_fields sha p kvs hm
  refine ⟨.obj kvs1, hb, ?_, ?_, hnodup, ?_⟩
  · exact decode_compress zc zd hz _ (build_doc_wf sha p kvs kvs1 hwf hnodup hb hm)
  · show dictGet kvs1 "files" = _
    rw [hfiles, dictFold_map _ _ hnodup]
  · rw [hs, get_package_files_eq p.name tree ht]
    rw [List.length_flatten, List.map_map]
    congr 1
    apply List.map_congr_left
    intro d _
    simp

/-- Witness for C1 at the spec's example: package `foo`, manifest
`version 1.0.0`, one file `a.txt` reading `hello`, identity compressor. -/
theorem c1_archive_reproduces_files_witness :
    ∃ doc : Json,
      build_package (fun _ => "d")
        ⟨"foo", some (some (.obj [("version", .str "1.0.0")])),
          some [([], ["a.txt"])], fun _ => "hello"⟩ = .ok (some doc) ∧
      decodeArchive id (compress id doc) = some doc ∧
      jGet doc "files" = some (.obj ((get_package_files "foo" (some [([], ["a.txt"])])).map
        (fun q => (q, fileEntry (fun _ => "d") ((fun _ => "hello") q))))) ∧
      (get_package_files "foo" (some [([], ["a.txt"])])).Nodup ∧
      (get_package_files "foo" (some [([], ["a.txt"])])).length
        = (([([], ["a.txt"])] : SourceTree).map (fun d => d.2.length)).sum :=
  c1_archive_reproduces_files (fun _ => "d") id id (fun _ h => ⟨rfl, h⟩)
    ⟨"foo", some (some (.obj [("version", .str "1.0.0")])),
      some [([], ["a.txt"])], fun _ => "hello"⟩
    [([], ["a.txt"])] [("version", .str "1.0.0")] rfl (by decide) rfl (by decide)

/-- C2 counterexample: a file in a subdirectory of the source root is
collected as `sub/a.txt` — no leading slash — refuting the claim that every
collected path (hence every `files` key) is `/`-prefixed. -/
theorem c2_counterexample :
    get_package_files "p" (some [([], []), (["sub"], ["a.txt"])]) = ["sub/a.txt"] ∧
    ("sub/a.txt" : String).data.head? = some 's' ∧ 's' ≠ '/' ∧
    wfTree [([], []), (["sub"], ["a.txt"])] = true := by
  refine ⟨by decide, rfl, by decide, by decide⟩

/-- C2 amended: every collected path has the form `<reldir>/<filename>`;
the leading slash appears exactly for files directly in the source root
(empty relative directory), while a file in a subdirectory yields a path
starting with the subdirectory's first character, never `/`. -/
theorem c2_amended_path_shape (name : String) (tree : SourceTree)
    (hw : wfTree tree = true) :
    ∀ q ∈ get_package_files name (some tree),
      ∃ d ∈ tree, ∃ f ∈ d.2, q = slashJoin d.1 ++ "/" ++ f ∧
        (d.1 = [] → q.data.head? = some '/') ∧
        (d.1 ≠ [] → ∃ c, q.data.head? = some c ∧ c ≠ '/') := by
  intro q hq
  rw [get_package_files_eq name tree hw] at hq
  rw [List.mem_flatten] at hq
  obtain ⟨l, hl, hql⟩ := hq
  rw [List.mem_map] at hl
  obtain ⟨d, hd, hdl⟩ := hl
  subst hdl
  rw [List.mem_map] at hql
  obtain ⟨f, hf, hfq⟩ := hql
  refine ⟨d, hd, f, hf, hfq.symm, ?_, ?_⟩
  · intro he
    rw [← hfq]
    have : (slashJoin d.1 ++ "/" ++ f).data = (slashJoin d.1).data ++ '/' :: f.data :=
      relPath_data d.1 f
    rw [this, he]
    rfl
  · intro he
    rw [wfTree, Bool.and_eq_true, List.all_eq_true] at hw
    have hdw := hw.1 d hd
    rw [Bool.and_eq_true, Bool.and_eq_true, List.all_eq_true] at hdw
    cases hx : d.1 with
    | nil => exact absurd hx he
    | cons x xs =>
      obtain ⟨hxne, hxall⟩ := wfName_props (hdw.1.1 x (by rw [hx]; simp))
      cases hxd : x.data with
      | nil => exact absurd hxd hxne
      | cons c cs =>
        refine ⟨c, ?_, hxall c (by rw [hxd]; simp)⟩
        rw [← hfq]
        rw [show (slashJoin d.1 ++ "/" ++ f).data = (slashJoin d.1).data ++ '/' :: f.data
          from relPath_data d.1 f]
        rw [hx, slashJoin_data_cons, hxd]
        rfl

/-- Witness for the amended C2, at the collected subdirectory path
`sub/a.txt` of a tree holding a root file and a subdirectory file. -/
theorem c2_amended_path_shape_witness :
    ∃ d ∈ [(([] : List String), ["r.txt"]), (["sub"], ["a.txt"])], ∃ f ∈ d.2,
      "sub/a.txt" = slashJoin d.1 ++ "/" ++ f ∧
      (d.1 = [] → ("sub/a.txt" : String).data.head? = some '/') ∧
      (d.1 ≠ [] → ∃ c, ("sub/a.txt" : String).data.head? = some c ∧ c ≠ '/') :=
  c2_amended_path_shape "p" [([], ["r.txt"]), (["sub"], ["a.txt"])] (by decide)
    "sub/a.txt" (by decide)

/-- C3: the Manifest Loader signals an absent manifest with the explicit
`none` value and no error, while a present but unparseable manifest
propagates an error; the two outcomes are distinct values of `Except`,
never conflated. -/
theorem c3_manifest_loader (p q : Package) (hp : p.manifest = none)
    (hq : q.manifest = some none) :
    get_manifest p = .ok none ∧ get_manifest q = .error .jsonDecodeErr ∧
      (Except.ok (none : Option Json)
        ≠ (Except.error BuildErr.jsonDecodeErr : Except BuildErr (Option Json))) := by
  refine ⟨?_, ?_, by simp⟩
  · simp [get_manifest, hp]
  · simp [get_manifest, hq]

/-- Witness for C3: one package without `manifest.json`, one with a
malformed `manifest.json`. -/
theorem c3_manifest_loader_witness :
    get_manifest ⟨"bar", none, none, fun _ => ""⟩ = .ok none ∧
    get_manifest ⟨"baz", some none, none, fun _ => ""⟩ = .error .jsonDecodeErr ∧
      (Except.ok (none : Option Json)
        ≠ (Except.error BuildErr.jsonDecodeErr : Except BuildErr (Option Json))) :=
  c3_manifest_loader ⟨"bar", none, none, fun _ => ""⟩
    ⟨"baz", some none, none, fun _ => ""⟩ rfl rfl

/-- C4: whenever a package is written, the digest stored in its index entry
is the SHA-256 hex digest of exactly the archive bytes — the
compressed-then-base64-encoded serialization of the built document — and
those same bytes are the written file's content. -/
theorem c4_index_digest (sha : List Nat → String) (zc : List Nat → List Nat)
    (p : Package) (fname : String) (bytes : List Nat) (entry : IndexEntry)
    (h : write_package sha zc p = .ok (some ((fname, bytes), entry))) :
    entry.digest = sha bytes ∧
      ∃ doc, build_package sha p = .ok (some doc) ∧ bytes = compress zc doc := by
  cases hb : build_package sha p with
  | error e => simp [write_package, hb] at h
  | ok o =>
    cases o with
    | none => simp [write_package, hb] at h
    | some doc =>
      cases hv : jGet doc "version" with
      | none =>
        rw [write_package_keyErr sha zc p doc hb hv] at h
        exact absurd h (by simp)
      | some v =>
        rw [write_package_some sha zc p doc hb v hv] at h
        injection h with h1
        injection h1 with h2
        injection h2 with h3 h4
        injection h3 with h5 h6
        subst h6
        subst h4
        exact ⟨rfl, doc, rfl, rfl⟩

/-- Witness for C4 at the example package, identity compressor, constant
digest function. -/
theorem c4_index_digest_witness :
    (⟨Json.str "1.0.0", "d"⟩ : IndexEntry).digest
      = (fun _ => "d") (compress id (Json.obj [("version", Json.str "1.0.0"),
          ("files", Json.obj [("/a.txt", Json.obj [("content", Json.str "hello"),
            ("digest", Json.str "d")])])])) ∧
    ∃ doc, build_package (fun _ => "d")
        ⟨"foo", some (some (.obj [("version", .str "1.0.0")])),
          some [([], ["a.txt"])], fun _ => "hello"⟩ = .ok (some doc) ∧
      compress id (Json.obj [("version", Json.str "1.0.0"),
          ("files", Json.obj [("/a.txt", Json.obj [("content", Json.str "hello"),
            ("digest", Json.str "d")])])]) = compress id doc :=
  c4_index_digest (fun _ => "d") id
    ⟨"foo", some (some (.obj [("version", .str "1.0.0")])),
      some [([], ["a.txt"])], fun _ => "hello"⟩
    (ccpName "foo" (Json.str "1.0.0"))
    (compress id (Json.obj [("version", Json.str "1.0.0"),
      ("files", Json.obj [("/a.txt", Json.obj [("content", Json.str "hello"),
        ("digest", Json.str "d")])])]))
    ⟨Json.str "1.0.0", "d"⟩ rfl

/-- C5: a package whose manifest file is missing contributes nothing:
`write_package` returns the skip signal (no archive, no entry), and any
run containing the package produces exactly the output of the run without
it — the remaining packages are still processed, and the final index has
no key for the skipped package. -/
theorem c5_missing_manifest_skipped (sha : List Nat → String) (zc : List Nat → List Nat)
    (p : Package) (hm : p.manifest = none) :
    write_package sha zc p = .ok none ∧
      ∀ ps1 ps2, mainRun sha zc (ps1 ++ p :: ps2) = mainRun sha zc (ps1 ++ ps2) := by
  have hw := write_package_skip sha zc p hm
  exact ⟨hw, mainRun_skip sha zc p hw⟩

/-- Witness for C5: the manifest-less package `bar`. -/
theorem c5_missing_manifest_skipped_witness :
    write_package (fun _ => "d") id ⟨"bar", none, none, fun _ => ""⟩ = .ok none ∧
      ∀ ps1 ps2, mainRun (fun _ => "d") id
          (ps1 ++ ⟨"bar", none, none, fun _ => ""⟩ :: ps2)
        = mainRun (fun _ => "d") id (ps1 ++ ps2) :=
  c5_missing_manifest_skipped (fun _ => "d") id ⟨"bar", none, none, fun _ => ""⟩ rfl

/-- C6: round-trip law — for every well-formed Package Document (string
keys, `files` entries holding content and digest strings) and every
compressor/decompressor pair satisfying the zlib contract on byte lists,
decoding the encoder's output (base64-decode, zlib-decompress, UTF-8 and
JSON parse) yields exactly the original document. -/
theorem c6_roundtrip (zc zd : List Nat → List Nat) (hz : ValidZlib zc zd)
    (doc : Json) (hwf : jwfB doc = true) :
    decodeArchive zd (compress zc doc) = some doc :=
  decode_compress zc zd hz doc hwf

/-- Witness for C6: the spec's example document, identity compressor. -/
theorem c6_roundtrip_witness :
    decodeArchive id (compress id (Json.obj [("name", Json.str "foo"),
      ("version", Json.str "1.0.0"),
      ("files", Json.obj [("/a.txt", Json.obj [("content", Json.str "hello, world"),
        ("digest", Json.str "09ca7e4eaa6e8ae9c7d261167129184883644d07dfba7cbfbc4c8a2e08360d5b")])])]))
    = some (Json.obj [("name", Json.str "foo"),
      ("version", Json.str "1.0.0"),
      ("files", Json.obj [("/a.txt", Json.obj [("content", Json.str "hello, world"),
        ("digest", Json.str "09ca7e4eaa6e8ae9c7d261167129184883644d07dfba7cbfbc4c8a2e08360d5b")])])]) :=
  c6_roundtrip id id (fun _ h => ⟨rfl, h⟩) _ (by decide)

/-- C7: determinism — two packages with the same name, identical manifest
outcomes, identical collector output and identical contents on the
collected paths produce identical write results: byte-identical archive
payloads, equal digests and index entries, and byte-identical `index.json`
output for the single-package run. -/
theorem c7_deterministic (sha : List Nat → String) (zc : List Nat → List Nat)
    (p q : Package) (hn : p.name = q.name) (hm : p.manifest = q.manifest)
    (hf : get_package_files p.name p.source = get_package_files q.name q.source)
    (hc : ∀ path ∈ get_package_files p.name p.source, p.contents path = q.contents path) :
    write_package sha zc p = write_package sha zc q ∧
      mainRun sha zc [p] = mainRun sha zc [q] ∧
      (mainRun sha zc [p]).map (fun r => indexFileBytes r.2)
        = (mainRun sha zc [q]).map (fun r => indexFileBytes r.2) := by
  have hb := build_package_congr sha p q hm hf hc
  have hw : write_package sha zc p = write_package sha zc q := by
    rw [write_package, write_package, hb, hn]
  have hr : mainRun sha zc [p] = mainRun sha zc [q] := by
    conv_lhs => rw [mainRun]
    conv_rhs => rw [mainRun]
    rw [hw, hn]
  exact ⟨hw, hr, by rw [hr]⟩

/-- Witness for C7: the same package presented twice, the second copy with
different contents outside the collected paths. -/
theorem c7_deterministic_witness :
    write_package (fun _ => "d") id
        ⟨"foo", some (some (.obj [("version", .str "1.0.0")])),
          some [([], ["a.txt"])], fun _ => "hello"⟩
      = write_package (fun _ => "d") id
        ⟨"foo", some (some (.obj [("version", .str "1.0.0")])),
          some [([], ["a.txt"])], fun s => if s = "/a.txt" then "hello" else "CHANGED"⟩ ∧
      mainRun (fun _ => "d") id
          [⟨"foo", some (some (.obj [("version", .str "1.0.0")])),
            some [([], ["a.txt"])], fun _ => "hello"⟩]
        = mainRun (fun _ => "d") id
          [⟨"foo", some (some (.obj [("version", .str "1.0.0")])),
            some [([], ["a.txt"])], fun s => if s = "/a.txt" then "hello" else "CHANGED"⟩] ∧
      (mainRun (fun _ => "d") id
          [⟨"foo", some (some (.obj [("version", .str "1.0.0")])),
            some [([], ["a.txt"])], fun _ => "hello"⟩]).map (fun r => indexFileBytes r.2)
        = (mainRun (fun _ => "d") id
          [⟨"foo", some (some (.obj [("version", .str "1.0.0")])),
            some [([], ["a.txt"])],
              fun s => if s = "/a.txt" then "hello" else "CHANGED"⟩]).map
            (fun r => indexFileBytes r.2) :=
  c7_deterministic (fun _ => "d") id
    ⟨"foo", some (some (.obj [("version", .str "1.0.0")])),
      some [([], ["a.txt"])], fun _ => "hello"⟩
    ⟨"foo", some (some (.obj [("version", .str "1.0.0")])),
      some [([], ["a.txt"])], fun s => if s = "/a.txt" then "hello" else "CHANGED"⟩
    rfl rfl rfl (by decide)

/-- C8: a package with a valid manifest (an object carrying a `version`
key) whose source subdirectory is absent or empty yields no collected
files, builds a document whose `files` field is the empty mapping, and is
still written to the pool and included in the index. -/
theorem c8_empty_source (sha : List Nat → String) (zc : List Nat → List Nat)
    (p : Package) (kvs : List (String × Json)) (v : Json)
    (hm : p.manifest = some (some (.obj kvs)))
    (hv : dictGet kvs "version" = some v)
    (hs : p.source = none ∨ p.source = some [] ∨ p.source = some [([], [])]) :
    get_package_files p.name p.source = [] ∧
    (∃ kvs1, build_package sha p = .ok (some (.obj kvs1)) ∧
      dictGet kvs1 "files" = some (.obj [])) ∧
    (∃ file entry, write_package sha zc p = .ok (some (file, entry)) ∧
      mainRun sha zc [p] = .ok ([file], [(p.name, entry)])) := by
  have h0 : get_package_files p.name p.source = [] := by
    rcases hs with hs | hs | hs <;> simp [get_package_files, hs]
  obtain ⟨kvs1, hb, hfiles, hothers⟩ := build_package_fields sha p kvs hm
  rw [h0] at hfiles
  have hv1 : dictGet kvs1 "version" = some v := by
    rw [hothers "version" (by decide), hv]
  refine ⟨h0, ⟨kvs1, hb, hfiles⟩, ?_⟩
  have hw := write_package_some sha zc p (.obj kvs1) hb v hv1
  refine ⟨_, _, hw, ?_⟩
  rw [show ([p] : List Package) = p :: [] from rfl, mainRun, hw]
  rfl

/-- Witness for C8: a manifest-only package with an empty source tree. -/
theorem c8_empty_source_witness :
    get_package_files "solo" (some ([] : SourceTree)) = [] ∧
    (∃ kvs1, build_package (fun _ => "d")
        ⟨"solo", some (some (.obj [("version", .str "2.0")])),
          some [], fun _ => ""⟩ = .ok (some (.obj kvs1)) ∧
      dictGet kvs1 "files" = some (.obj [])) ∧
    (∃ file entry, write_package (fun _ => "d") id
        ⟨"solo", some (some (.obj [("version", .str "2.0")])),
          some [], fun _ => ""⟩ = .ok (some (file, entry)) ∧
      mainRun (fun _ => "d") id
          [⟨"solo", some (some (.obj [("version", .str "2.0")])),
            some [], fun _ => ""⟩]
        = .ok ([file], [("solo", entry)])) :=
  c8_empty_source (fun _ => "d") id
    ⟨"solo", some (some (.obj [("version", .str "2.0")])), some [], fun _ => ""⟩
    [("version", .str "2.0")] (.str "2.0") rfl rfl (.inr (.inl rfl))

/-- C9 (implicit): a present, parseable object manifest lacking a `version`
key is not skipped — assembly succeeds — but the Pool Writer's version
lookup raises the uncaught `KeyError`, aborting the whole run before any
archive for the package is produced. -/
theorem c9_missing_version (sha : List Nat → String) (zc : List Nat → List Nat)
    (p : Package) (kvs : List (String × Json))
    (hm : p.manifest = some (some (.obj kvs)))
    (hv : dictGet kvs "version" = none) :
    (∃ doc, build_package sha p = .ok (some doc)) ∧
    write_package sha zc p = .error .keyErr ∧
    ∀ ps2, mainRun sha zc (p :: ps2) = .error .keyErr := by
  obtain ⟨kvs1, hb, hfiles, hothers⟩ := build_package_fields sha p kvs hm
  have hv1 : dictGet kvs1 "version" = none := by
    rw [hothers "version" (by decide), hv]
  have hw := write_package_keyErr sha zc p (.obj kvs1) hb hv1
  refine ⟨⟨_, hb⟩, hw, fun ps2 => ?_⟩
  rw [mainRun, hw]

/-- Witness for C9: a manifest with a `name` but no `version`. -/
theorem c9_missing_version_witness :
    (∃ doc, build_package (fun _ => "d")
        ⟨"nov", some (some (.obj [("name", .str "nov")])),
          none, fun _ => ""⟩ = .ok (some doc)) ∧
    write_package (fun _ => "d") id
        ⟨"nov", some (some (.obj [("name", .str "nov")])), none, fun _ => ""⟩
      = .error .keyErr ∧
    ∀ ps2, mainRun (fun _ => "d") id
        (⟨"nov", some (some (.obj [("name", .str "nov")])), none, fun _ => ""⟩ :: ps2)
      = .error .keyErr :=
  c9_missing_version (fun _ => "d") id
    ⟨"nov", some (some (.obj [("name", .str "nov")])), none, fun _ => ""⟩
    [("name", .str "nov")] rfl rfl

/-- C10 (implicit): the Package Assembler preserves every manifest key
other than `files` with its original value, and unconditionally replaces
`files` with the freshly computed mapping — an expression that does not
depend on the manifest's own `files` value, so a manifest-supplied `files`
field is silently discarded. -/
theorem c10_files_frame (sha : List Nat → String) (p : Package)
    (kvs : List (String × Json)) (hm : p.manifest = some (some (.obj kvs))) :
    ∃ kvs1, build_package sha p = .ok (some (.obj kvs1)) ∧
      (∀ k, k ≠ "files" → dictGet kvs1 k = dictGet kvs k) ∧
      dictGet kvs1 "files" = some (.obj ((get_package_files p.name p.source).foldl
        (fun fs q => dictSet fs q (fileEntry sha (p.contents q))) [])) := by
  obtain ⟨kvs1, hb, hfiles, hothers⟩ := build_package_fields sha p kvs hm
  exact ⟨kvs1, hb, hothers, hfiles⟩

/-- Witness for C10: a manifest that already carries a bogus `files`
value; the assembled document keeps `version` and replaces `files`. -/
theorem c10_files_frame_witness :
    ∃ kvs1, build_package (fun _ => "d")
        ⟨"foo", some (some (.obj [("version", .str "1.0.0"), ("files", .str "junk")])),
          some [([], ["a.txt"])], fun _ => "hello"⟩ = .ok (some (.obj kvs1)) ∧
      (∀ k, k ≠ "files" → dictGet kvs1 k
        = dictGet [("version", .str "1.0.0"), ("files", .str "junk")] k) ∧
      dictGet kvs1 "files" = some (.obj ((get_package_files "foo"
          (some [([], ["a.txt"])])).foldl
        (fun fs q => dictSet fs q (fileEntry (fun _ => "d")
          ((fun _ => "hello") q))) [])) :=
  c10_files_frame (fun _ => "d")
    ⟨"foo", some (some (.obj [("version", .str "1.0.0"), ("files", .str "junk")])),
      some [([], ["a.txt"])], fun _ => "hello"⟩
    [("version", .str "1.0.0"), ("files", .str "junk")] rfl

end Ccpm
